import Mathlib

/-!
Shallow embedding of the rssdsim system-dynamics engine core
(src/model/expression.rs, src/model/mod.rs, src/simulation/{mod,engine,integrator,delay,lookup}.rs)
over exact rational arithmetic.  IEEE-754 doubles are modelled as ℚ;
transcendental f64 operations (sqrt, exp, ln, powf, trigonometry), which do not
exist on ℚ, are abstracted into a `RealFuns` record of uninterpreted functions
threaded through the evaluator — no claim below depends on their values.
Rust `HashMap`s are modelled as association lists in insertion order with
replace-on-insert, mirroring the key-uniqueness a `HashMap` guarantees; the
source iterates hash maps in an unspecified order, and the list order stands in
for one fixed iteration order.
-/

deriving instance DecidableEq for Except

namespace Rssdsim

/-- Lookup in an association list: first entry with the given key (HashMap::get). -/
def aget {α : Type} : List (String × α) → String → Option α
  | [], _ => none
  | (k2, v) :: rest, k => if k2 = k then some v else aget rest k

/-- Insert into an association list: replace the first entry with the key, else
append (HashMap::insert; keeps keys unique when they were unique). -/
def ainsert {α : Type} : List (String × α) → String → α → List (String × α)
  | [], k, v => [(k, v)]
  | (k2, v2) :: rest, k, v =>
      if k2 = k then (k, v) :: rest else (k2, v2) :: ainsert rest k v

/-- Key membership in an association list (HashMap::contains_key). -/
def ahas {α : Type} (l : List (String × α)) (k : String) : Bool :=
  (aget l k).isSome

/-- Subscript references, from src/model/dimension.rs (used by the parser and
the subscripted-variable evaluation path). -/
inductive SubscriptRef where
  | Element (name : String)
  | Dimension (name : String)
  | Wildcard
  deriving Repr, DecidableEq

/-- Binary operators of the expression language (src/model/expression.rs). -/
inductive Operator where
  | Add | Subtract | Multiply | Divide | Power
  | GreaterThan | LessThan | GreaterEqual | LessEqual | Equal | NotEqual
  deriving Repr, DecidableEq

/-- Unary operators (src/model/expression.rs). -/
inductive UnaryOperator where
  | Negate
  deriving Repr, DecidableEq

/-- Expression AST (src/model/expression.rs, enum Expression). -/
inductive Expression where
  | Constant (v : ℚ)
  | Variable (name : String)
  | SubscriptedVariable (name : String) (subscripts : List SubscriptRef)
  | BinaryOp (op : Operator) (left right : Expression)
  | UnaryOp (op : UnaryOperator) (expr : Expression)
  | FunctionCall (name : String) (args : List Expression)
  | Conditional (condition trueExpr falseExpr : Expression)
  deriving Repr

/-- Format a constant the way Rust Display formats an f64 whose value is an
integer (`format!("{}", 1.0)` is "1").  Non-integer rationals are printed as
num/den; the f64 decimal rendering of non-integers is not replicated — no claim
depends on it (the delay-key constants of the claims are integers). -/
def fmtConstant (q : ℚ) : String :=
  if q.den = 1 then toString q.num else toString q.num ++ "/" ++ toString q.den

/-- Render a subscript reference, mirroring the Display impl. -/
def subRefToString : SubscriptRef → String
  | .Element e => e
  | .Dimension d => d
  | .Wildcard => "*"

/-- Operator symbol for Display. -/
def opToString : Operator → String
  | .Add => "+"
  | .Subtract => "-"
  | .Multiply => "*"
  | .Divide => "/"
  | .Power => "^"
  | .GreaterThan => ">"
  | .LessThan => "<"
  | .GreaterEqual => ">="
  | .LessEqual => "<="
  | .Equal => "=="
  | .NotEqual => "!="

mutual

/-- Printed form of an expression, mirroring impl fmt::Display for Expression
(src/model/expression.rs).  Used for delay call-site keys. -/
def exprToString : Expression → String
  | .Constant v => fmtConstant v
  | .Variable name => name
  | .SubscriptedVariable name subs =>
      name ++ "[" ++ String.intercalate ", " (subs.map subRefToString) ++ "]"
  | .BinaryOp op l r =>
      "(" ++ exprToString l ++ " " ++ opToString op ++ " " ++ exprToString r ++ ")"
  | .UnaryOp .Negate e => "(-" ++ exprToString e ++ ")"
  | .FunctionCall name args => name ++ "(" ++ exprListToString args ++ ")"
  | .Conditional c t e =>
      "IF " ++ exprToString c ++ " THEN " ++ exprToString t ++ " ELSE " ++ exprToString e

/-- Comma-separated argument list for Display of a function call. -/
def exprListToString : List Expression → String
  | [] => ""
  | [a] => exprToString a
  | a :: rest => exprToString a ++ ", " ++ exprListToString rest

end

/-- Exponential delay instance (src/simulation/delay.rs, struct ExponentialDelay). -/
structure ExponentialDelay where
  value : ℚ
  delayTime : ℚ
  order : ℕ
  stages : List ℚ
  deriving Repr, DecidableEq

/-- ExponentialDelay::new. -/
def ExponentialDelay.mkNew (initialValue delayTime : ℚ) (order : ℕ) : ExponentialDelay :=
  { value := initialValue, delayTime := delayTime, order := order,
    stages := if order > 1 then List.replicate order initialValue else [initialValue] }

/-- One cascade pass over the old stages: element i becomes
stageᵢ + (prevᵢ₋₁ − stageᵢ)/stageDelay · dt where prev is the old upstream value
(the input for stage 0).  Helper for ExponentialDelay.update, order > 1. -/
def cascadeStages (stageDelay dt : ℚ) : ℚ → List ℚ → List ℚ
  | _, [] => []
  | prev, s :: rest => (s + (prev - s) / stageDelay * dt) :: cascadeStages stageDelay dt s rest

/-- ExponentialDelay::update (src/simulation/delay.rs lines 43-67).  Order 1:
value += (input − value)/delayTime · dt.  Otherwise the cascade of first-order
stages with time constant delayTime/order; the reported value is the last new
stage (stages are nonempty by construction; Rust would panic on an empty
stages vector, here the old value is kept). -/
def ExponentialDelay.update (d : ExponentialDelay) (input dt : ℚ) : ExponentialDelay :=
  if d.order = 1 then
    let derivative := (input - d.value) / d.delayTime
    let v := d.value + derivative * dt
    { d with value := v, stages := d.stages.set 0 v }
  else
    let stageDelay := d.delayTime / (d.order : ℚ)
    let newStages := cascadeStages stageDelay dt input d.stages
    { d with stages := newStages, value := newStages.getLastD d.value }

/-- Pipeline (pure) delay (src/simulation/delay.rs, struct PipelineDelay).
The history list front is the oldest entry (VecDeque front). -/
structure PipelineDelay where
  history : List (ℚ × ℚ)
  delayTime : ℚ
  initialValue : ℚ
  deriving Repr, DecidableEq

/-- PipelineDelay::new. -/
def PipelineDelay.mkNew (initialValue delayTime : ℚ) : PipelineDelay :=
  { history := [], delayTime := delayTime, initialValue := initialValue }

/-- The pruning loop of PipelineDelay::push: while more than two entries remain
and the front is older than the cutoff, drop the front. -/
def prunePipeline (cutoff : ℚ) : List (ℚ × ℚ) → List (ℚ × ℚ)
  | [] => []
  | (t, v) :: rest =>
      if 2 < ((t, v) :: rest).length ∧ t < cutoff then prunePipeline cutoff rest
      else (t, v) :: rest

/-- PipelineDelay::push: append (time, value), then prune history older than
time − 2·delayTime while keeping at least two entries. -/
def PipelineDelay.push (p : PipelineDelay) (time value : ℚ) : PipelineDelay :=
  let h := p.history ++ [(time, value)]
  { p with history := prunePipeline (time - p.delayTime * 2) h }

/-- Scan of PipelineDelay::get_delayed_value: walk the history for the first
entry at or past the target time and interpolate with its predecessor; past the
end, the last recorded value. -/
def pipelineScan (target : ℚ) : (ℚ × ℚ) → List (ℚ × ℚ) → ℚ
  | (_, vp), [] => vp
  | (tp, vp), (t, v) :: rest =>
      if t ≥ target then vp + ((target - tp) / (t - tp)) * (v - vp)
      else pipelineScan target (t, v) rest

/-- PipelineDelay::get_delayed_value (src/simulation/delay.rs lines 115-152). -/
def PipelineDelay.getDelayedValue (p : PipelineDelay) (currentTime : ℚ) : ℚ :=
  let target := currentTime - p.delayTime
  match p.history with
  | [] => p.initialValue
  | (t0, v0) :: rest =>
      if target ≤ t0 then p.initialValue else pipelineScan target (t0, v0) rest

/-- Delay registry carried in the simulation state (src/simulation/delay.rs,
struct DelayManager). -/
structure DelayManager where
  exponentialDelays : List (String × ExponentialDelay)
  pipelineDelays : List (String × PipelineDelay)
  deriving Repr, DecidableEq

/-- DelayManager::new. -/
def DelayManager.mkNew : DelayManager := { exponentialDelays := [], pipelineDelays := [] }

/-- DelayManager::update_all_exponential: update each exponential delay whose
key has an input. -/
def DelayManager.updateAllExponential (m : DelayManager) (inputs : List (String × ℚ)) (dt : ℚ) :
    DelayManager :=
  { m with exponentialDelays := m.exponentialDelays.map (fun kd =>
      match aget inputs kd.1 with
      | some input => (kd.1, kd.2.update input dt)
      | none => kd) }

/-- Simulation state snapshot (src/simulation/mod.rs, struct SimulationState,
plus the delays substate that src/simulation/integrator.rs threads through it;
the stochastic and agent substates are not modelled — no claim depends on
them, and the functions touching them are mapped to evaluation errors). -/
structure SimulationState where
  time : ℚ
  stocks : List (String × ℚ)
  flows : List (String × ℚ)
  auxiliaries : List (String × ℚ)
  delays : DelayManager
  deriving Repr, DecidableEq

/-- SimulationState::new. -/
def SimulationState.mkNew : SimulationState :=
  { time := 0, stocks := [], flows := [], auxiliaries := [], delays := DelayManager.mkNew }

/-- Stock (src/model/stock.rs). -/
structure Stock where
  name : String
  initial : Expression
  inflows : List String
  outflows : List String
  nonNegative : Bool
  maxValue : Option ℚ
  deriving Repr

/-- Flow (src/model/flow.rs). -/
structure Flow where
  name : String
  equation : Expression
  deriving Repr

/-- Auxiliary (src/model/auxiliary.rs). -/
structure Auxiliary where
  name : String
  equation : Expression
  deriving Repr

/-- Parameter (src/model/parameter.rs). -/
structure Parameter where
  name : String
  value : ℚ
  deriving Repr

/-- Lookup table (src/simulation/lookup.rs, struct LookupTable). -/
structure LookupTable where
  name : String
  points : List (ℚ × ℚ)
  deriving Repr, DecidableEq

/-- Adjacent-pair check of LookupTable::new: true unless some point has an x
below its predecessor's (equal x values are accepted). -/
def xsNonDecreasing : List (ℚ × ℚ) → Bool
  | p :: q :: rest => if q.1 < p.1 then false else xsNonDecreasing (q :: rest)
  | _ => true

/-- LookupTable::new: rejects an empty point list and any strictly decreasing
adjacent x pair. -/
def LookupTable.mkNew (name : String) (points : List (ℚ × ℚ)) : Except String LookupTable :=
  if points.isEmpty then .error "Lookup table must have at least one point"
  else if !xsNonDecreasing points then
    .error "Lookup table points must be sorted by x value"
  else .ok { name := name, points := points }

/-- Bracket scan of LookupTable::lookup: walk pairs (prev, cur) and return the
linear interpolation at the first cur with x ≤ cur.x; past the end, the last y.
Invoked only after the endpoint clamps, mirroring the source loop from i = 1. -/
def lookupScan (x : ℚ) : (ℚ × ℚ) → List (ℚ × ℚ) → ℚ
  | (_, yp), [] => yp
  | (xp, yp), (xc, yc) :: rest =>
      if x ≤ xc then yp + ((x - xp) / (xc - xp)) * (yc - yp)
      else lookupScan x (xc, yc) rest

/-- LookupTable::lookup (src/simulation/lookup.rs lines 33-63): clamp below the
first x to the first y, above the last x to the last y, otherwise interpolate
in the first bracket; the empty table returns 0. -/
def LookupTable.lookup (t : LookupTable) (x : ℚ) : ℚ :=
  match t.points with
  | [] => 0
  | (x0, y0) :: rest =>
      if x ≤ x0 then y0
      else
        let last := ((x0, y0) :: rest).getLast (by simp)
        if x ≥ last.1 then last.2
        else lookupScan x (x0, y0) rest

/-- Time configuration (src/model/mod.rs, struct TimeConfig; units omitted). -/
structure TimeConfig where
  start : ℚ
  stop : ℚ
  dt : ℚ
  deriving Repr, DecidableEq

/-- TimeConfig::default (start 0, stop 100, dt 0.25). -/
def TimeConfig.dfl : TimeConfig := { start := 0, stop := 100, dt := 1/4 }

/-- Model container (src/model/mod.rs, struct Model; metadata, dimensions and
unit information omitted — no claim touches them). -/
structure Model where
  time : TimeConfig
  stocks : List (String × Stock)
  flows : List (String × Flow)
  auxiliaries : List (String × Auxiliary)
  parameters : List (String × Parameter)
  lookups : List (String × LookupTable)
  deriving Repr

/-- Model::get_variable (src/model/mod.rs lines 136-158): parameters, then
stocks, then flows, then auxiliaries in the given state; a miss is an error. -/
def Model.getVariable (m : Model) (name : String) (state : SimulationState) : Except String ℚ :=
  match aget m.parameters name with
  | some param => .ok param.value
  | none =>
    match aget state.stocks name with
    | some value => .ok value
    | none =>
      match aget state.flows name with
      | some value => .ok value
      | none =>
        match aget state.auxiliaries name with
        | some value => .ok value
        | none => .error ("Variable " ++ name ++ " not found")

/-- Truncation toward zero, as Rust f64 as-int truncation / the implicit
truncation in the f64 % operator. -/
def ftrunc (q : ℚ) : ℚ := if 0 ≤ q then (⌊q⌋ : ℚ) else (⌈q⌉ : ℚ)

/-- The f64 % remainder: same sign as the dividend, a − b·trunc(a/b). -/
def fmod (a b : ℚ) : ℚ := a - b * ftrunc (a / b)

/-- f64::round — round half away from zero. -/
def fround (q : ℚ) : ℚ := if 0 ≤ q then (⌊q + 1/2⌋ : ℚ) else -(⌊-q + 1/2⌋ : ℚ)

/-- Uninterpreted stand-ins for the transcendental f64 operations, which have
no exact counterpart on ℚ.  Every evaluator definition takes a RealFuns; no
claim below depends on the values of these fields. -/
structure RealFuns where
  fsqrt : ℚ → ℚ
  fexp : ℚ → ℚ
  fln : ℚ → ℚ
  flog10 : ℚ → ℚ
  fsin : ℚ → ℚ
  fcos : ℚ → ℚ
  ftan : ℚ → ℚ
  fasin : ℚ → ℚ
  facos : ℚ → ℚ
  fatan : ℚ → ℚ
  powf : ℚ → ℚ → ℚ

/-- A concrete RealFuns instance (all zero / projection), used by witnesses;
the claims hold for every instance. -/
def F0 : RealFuns :=
  { fsqrt := fun _ => 0, fexp := fun _ => 0, fln := fun _ => 0, flog10 := fun _ => 0,
    fsin := fun _ => 0, fcos := fun _ => 0, ftan := fun _ => 0, fasin := fun _ => 0,
    facos := fun _ => 0, fatan := fun _ => 0, powf := fun _ _ => 0 }

/-- Character-wise ASCII uppercase, modelling Rust str::to_uppercase (which
agrees character-wise outside special Unicode casings none of the reserved
names use). -/
def strToUpper (s : String) : String := String.mk (s.data.map Char.toUpper)

/-- EvaluationContext::get_variable (src/model/expression.rs lines 953-960):
the literal identifier TIME, compared case-insensitively, yields the context
time; everything else defers to Model::get_variable. -/
def ctxGetVariable (m : Model) (time : ℚ) (name : String) (st : SimulationState) :
    Except String ℚ :=
  if strToUpper name = "TIME" then .ok time else m.getVariable name st

/-- Flattening loop of get_subscripted_variable: append each element subscript
with an underscore; dimension and wildcard subscripts are unsupported errors. -/
def flattenSubs : String → List SubscriptRef → Except String String
  | acc, [] => .ok acc
  | acc, .Element e :: rest => flattenSubs (acc ++ "_" ++ e) rest
  | _, .Dimension d :: _ =>
      .error ("Dimension subscript " ++ d ++ " not yet supported - use specific elements")
  | _, .Wildcard :: _ => .error "Wildcard subscript not yet supported"

/-- EvaluationContext::get_subscripted_variable: flatten the subscripts into
the variable name with underscores and resolve the flattened name. -/
def ctxGetSubscripted (m : Model) (time : ℚ) (name : String) (subs : List SubscriptRef)
    (st : SimulationState) : Except String ℚ :=
  match subs with
  | [] => ctxGetVariable m time name st
  | _ =>
    match flattenSubs name subs with
    | .ok full => ctxGetVariable m time full st
    | .error e => .error e

/-- Semantics of a binary operator on evaluated operands
(src/model/expression.rs lines 484-507): division by exactly zero errors,
Power is the abstracted real power, comparisons yield 1.0/0.0, and ==/!= use
the 1e-10 tolerance. -/
def applyBinOp (F : RealFuns) (op : Operator) (a b : ℚ) : Except String ℚ :=
  match op with
  | .Add => .ok (a + b)
  | .Subtract => .ok (a - b)
  | .Multiply => .ok (a * b)
  | .Divide => if b = 0 then .error "Division by zero" else .ok (a / b)
  | .Power => .ok (F.powf a b)
  | .GreaterThan => .ok (if a > b then 1 else 0)
  | .LessThan => .ok (if a < b then 1 else 0)
  | .GreaterEqual => .ok (if a ≥ b then 1 else 0)
  | .LessEqual => .ok (if a ≤ b then 1 else 0)
  | .Equal => .ok (if |a - b| < 1/10000000000 then 1 else 0)
  | .NotEqual => .ok (if |a - b| ≥ 1/10000000000 then 1 else 0)

/-- Inline lookup points of WITH_LOOKUP: consecutive pairs after the probe. -/
def pairPoints : List ℚ → List (ℚ × ℚ)
  | a :: b :: rest => (a, b) :: pairPoints rest
  | _ => []

/-- The call-site key of a delay function: function name and printed argument
expressions joined with underscores (format!("{}_{}", name, args…)). -/
def delayKey (name : String) (args : List Expression) : String :=
  name ++ "_" ++ String.intercalate "_" (args.map exprToString)

/-- Expression::evaluate_function (src/model/expression.rs lines 532-938),
dispatching on the uppercased function name after all arguments have been
evaluated.  The stochastic functions and AGENT_COUNT() read substate that is
not modelled (no claim touches it); they keep their arity checks and map the
value-returning paths to errors flagged as unmodelled. -/
def evalFunction (F : RealFuns) (name : String) (args : List Expression) (vals : List ℚ)
    (time : ℚ) (st : SimulationState) : Except String (ℚ × SimulationState) :=
  match strToUpper name with
  | "MIN" =>
      match vals with
      | [] => .error "MIN requires at least 1 argument"
      | v :: rest => .ok (rest.foldl min v, st)
  | "MAX" =>
      match vals with
      | [] => .error "MAX requires at least 1 argument"
      | v :: rest => .ok (rest.foldl max v, st)
  | "ABS" =>
      match vals with
      | [v] => .ok (|v|, st)
      | _ => .error ("ABS expects 1 argument, got " ++ toString vals.length)
  | "SQRT" =>
      match vals with
      | [v] => .ok (F.fsqrt v, st)
      | _ => .error ("SQRT expects 1 argument, got " ++ toString vals.length)
  | "EXP" =>
      match vals with
      | [v] => .ok (F.fexp v, st)
      | _ => .error ("EXP expects 1 argument, got " ++ toString vals.length)
  | "LN" =>
      match vals with
      | [v] => if v ≤ 0 then .error "LN requires positive argument" else .ok (F.fln v, st)
      | _ => .error ("LN expects 1 argument, got " ++ toString vals.length)
  | "LOG" =>
      match vals with
      | [v] => if v ≤ 0 then .error "LOG requires positive argument" else .ok (F.fln v, st)
      | _ => .error ("LOG expects 1 argument, got " ++ toString vals.length)
  | "LOG10" =>
      match vals with
      | [v] => if v ≤ 0 then .error "LOG10 requires positive argument" else .ok (F.flog10 v, st)
      | _ => .error ("LOG10 expects 1 argument, got " ++ toString vals.length)
  | "SIN" =>
      match vals with
      | [v] => .ok (F.fsin v, st)
      | _ => .error ("SIN expects 1 argument, got " ++ toString vals.length)
  | "COS" =>
      match vals with
      | [v] => .ok (F.fcos v, st)
      | _ => .error ("COS expects 1 argument, got " ++ toString vals.length)
  | "TAN" =>
      match vals with
      | [v] => .ok (F.ftan v, st)
      | _ => .error ("TAN expects 1 argument, got " ++ toString vals.length)
  | "ASIN" =>
      match vals with
      | [v] =>
          if v < -1 ∨ v > 1 then .error "ASIN requires argument in [-1, 1]"
          else .ok (F.fasin v, st)
      | _ => .error ("ASIN expects 1 argument, got " ++ toString vals.length)
  | "ACOS" =>
      match vals with
      | [v] =>
          if v < -1 ∨ v > 1 then .error "ACOS requires argument in [-1, 1]"
          else .ok (F.facos v, st)
      | _ => .error ("ACOS expects 1 argument, got " ++ toString vals.length)
  | "ATAN" =>
      match vals with
      | [v] => .ok (F.fatan v, st)
      | _ => .error ("ATAN expects 1 argument, got " ++ toString vals.length)
  | "FLOOR" =>
      match vals with
      | [v] => .ok ((⌊v⌋ : ℚ), st)
      | _ => .error ("FLOOR expects 1 argument, got " ++ toString vals.length)
  | "CEIL" =>
      match vals with
      | [v] => .ok ((⌈v⌉ : ℚ), st)
      | _ => .error ("CEIL expects 1 argument, got " ++ toString vals.length)
  | "ROUND" =>
      match vals with
      | [v] => .ok (fround v, st)
      | _ => .error ("ROUND expects 1 argument, got " ++ toString vals.length)
  | "POW" =>
      match vals with
      | [a, b] => .ok (F.powf a b, st)
      | _ => .error ("POW expects 2 arguments, got " ++ toString vals.length)
  | "MODULO" =>
      match vals with
      | [a, b] => if b = 0 then .error "MODULO by zero" else .ok (fmod a b, st)
      | _ => .error ("MODULO expects 2 arguments, got " ++ toString vals.length)
  | "MOD" =>
      match vals with
      | [a, b] => if b = 0 then .error "MODULO by zero" else .ok (fmod a b, st)
      | _ => .error ("MODULO expects 2 arguments, got " ++ toString vals.length)
  | "PULSE" =>
      match vals with
      | [start, width] =>
          .ok (if start ≤ time ∧ time < start + width then 1 else 0, st)
      | [start, width, interval] =>
          if interval ≤ 0 then .error "PULSE interval must be positive"
          else if time < start then .ok (0, st)
          else .ok (if fmod (time - start) interval < width then 1 else 0, st)
      | _ => .error ("PULSE expects 2 or 3 arguments, got " ++ toString vals.length)
  | "STEP" =>
      match vals with
      | [height, stepTime] => .ok (if time ≥ stepTime then height else 0, st)
      | _ => .error ("STEP expects 2 arguments, got " ++ toString vals.length)
  | "RAMP" =>
      match vals with
      | [slope, startTime] =>
          if time < startTime then .ok (0, st) else .ok (slope * (time - startTime), st)
      | [slope, startTime, endTime] =>
          if time < startTime then .ok (0, st)
          else if time ≥ endTime then .ok (slope * (endTime - startTime), st)
          else .ok (slope * (time - startTime), st)
      | _ => .error ("RAMP expects 2 or 3 arguments, got " ++ toString vals.length)
  | "TIME" =>
      match vals with
      | [] => .ok (time, st)
      | _ => .error ("TIME expects 0 arguments, got " ++ toString vals.length)
  | "DELAY1" =>
      match vals with
      | input :: delayTime :: restVals =>
          if restVals.length ≤ 1 then
            let initial := match restVals with
              | [i] => i
              | _ => input
            let key := delayKey name args
            match aget st.delays.exponentialDelays key with
            | some d => .ok (d.value, st)
            | none =>
                let d := ExponentialDelay.mkNew initial delayTime 1
                .ok (d.value, { st with delays := { st.delays with
                  exponentialDelays := ainsert st.delays.exponentialDelays key d } })
          else .error (name ++ " expects 2 or 3 arguments, got " ++ toString vals.length)
      | _ => .error (name ++ " expects 2 or 3 arguments, got " ++ toString vals.length)
  | "SMOOTH" =>
      match vals with
      | input :: delayTime :: restVals =>
          if restVals.length ≤ 1 then
            let initial := match restVals with
              | [i] => i
              | _ => input
            let key := delayKey name args
            match aget st.delays.exponentialDelays key with
            | some d => .ok (d.value, st)
            | none =>
                let d := ExponentialDelay.mkNew initial delayTime 1
                .ok (d.value, { st with delays := { st.delays with
                  exponentialDelays := ainsert st.delays.exponentialDelays key d } })
          else .error (name ++ " expects 2 or 3 arguments, got " ++ toString vals.length)
      | _ => .error (name ++ " expects 2 or 3 arguments, got " ++ toString vals.length)
  | "DELAY3" =>
      match vals with
      | input :: delayTime :: restVals =>
          if restVals.length ≤ 1 then
            let initial := match restVals with
              | [i] => i
              | _ => input
            let key := delayKey "DELAY3" args
            match aget st.delays.exponentialDelays key with
            | some d => .ok (d.value, st)
            | none =>
                let d := ExponentialDelay.mkNew initial delayTime 3
                .ok (d.value, { st with delays := { st.delays with
                  exponentialDelays := ainsert st.delays.exponentialDelays key d } })
          else .error ("DELAY3 expects 2 or 3 arguments, got " ++ toString vals.length)
      | _ => .error ("DELAY3 expects 2 or 3 arguments, got " ++ toString vals.length)
  | "DELAYP" =>
      match vals with
      | [_input, delayTime, initial] =>
          let key := delayKey "DELAYP" args
          match aget st.delays.pipelineDelays key with
          | some p => .ok (p.getDelayedValue time, st)
          | none =>
              let p := PipelineDelay.mkNew initial delayTime
              .ok (p.getDelayedValue time, { st with delays := { st.delays with
                pipelineDelays := ainsert st.delays.pipelineDelays key p } })
      | _ => .error ("DELAYP expects 3 arguments, got " ++ toString vals.length)
  | "LOOKUP" =>
      if vals.length ≠ 2 then .error ("LOOKUP expects 2 arguments, got " ++ toString vals.length)
      else .error "LOOKUP function requires direct lookup table reference - use WITH_LOOKUP instead"
  | "WITH_LOOKUP" =>
      if vals.length < 3 ∨ vals.length % 2 ≠ 1 then
        .error "WITH_LOOKUP expects odd number of arguments: x, x1, y1, x2, y2, ..."
      else
        match vals with
        | x :: rest =>
            match LookupTable.mkNew "inline" (pairPoints rest) with
            | .ok table => .ok (table.lookup x, st)
            | .error e => .error e
        | [] => .error "WITH_LOOKUP expects odd number of arguments: x, x1, y1, x2, y2, ..."
  | "RANDOM" =>
      match vals with
      | [] => .error "stochastic substate not modelled"
      | _ => .error ("RANDOM expects 0 arguments, got " ++ toString vals.length)
  | "UNIFORM" =>
      match vals with
      | [_, _] => .error "stochastic substate not modelled"
      | _ => .error ("UNIFORM expects 2 arguments, got " ++ toString vals.length)
  | "NORMAL" =>
      match vals with
      | [_, _] => .error "stochastic substate not modelled"
      | _ => .error ("NORMAL expects 2 arguments, got " ++ toString vals.length)
  | "LOGNORMAL" =>
      match vals with
      | [_, _] => .error "stochastic substate not modelled"
      | _ => .error ("LOGNORMAL expects 2 arguments, got " ++ toString vals.length)
  | "POISSON" =>
      match vals with
      | [_] => .error "stochastic substate not modelled"
      | _ => .error ("POISSON expects 1 argument, got " ++ toString vals.length)
  | "AGENT_COUNT" =>
      match vals with
      | [] => .error "agent substate not modelled"
      | _ => .error "AGENT_COUNT with type parameter not yet implemented - use AGENT_COUNT()"
  | "AGENT_SUM" => .error "AGENT_SUM requires string arguments for type and attribute names"
  | "AGENT_MEAN" => .error "AGENT_MEAN requires string arguments for type and attribute names"
  | "AGENT_MAX" => .error "AGENT_MAX requires string arguments for type and attribute names"
  | "AGENT_MIN" => .error "AGENT_MIN requires string arguments for type and attribute names"
  | _ => .error ("Unknown function: " ++ name)

mutual

/-- Expression::evaluate (src/model/expression.rs lines 472-530).  The Rust
evaluator mutates the state inside the context (delay registration); here the
state is threaded explicitly, so evaluation returns value and updated state. -/
def evalExpr (F : RealFuns) (m : Model) (time : ℚ) :
    Expression → SimulationState → Except String (ℚ × SimulationState)
  | .Constant v, st => .ok (v, st)
  | .Variable name, st =>
      match ctxGetVariable m time name st with
      | .ok v => .ok (v, st)
      | .error e => .error e
  | .SubscriptedVariable name subs, st =>
      match ctxGetSubscripted m time name subs st with
      | .ok v => .ok (v, st)
      | .error e => .error e
  | .BinaryOp op l r, st =>
      match evalExpr F m time l st with
      | .error e => .error e
      | .ok (lv, st1) =>
        match evalExpr F m time r st1 with
        | .error e => .error e
        | .ok (rv, st2) =>
          match applyBinOp F op lv rv with
          | .ok v => .ok (v, st2)
          | .error e => .error e
  | .UnaryOp .Negate e, st =>
      match evalExpr F m time e st with
      | .error err => .error err
      | .ok (v, st1) => .ok (-v, st1)
  | .FunctionCall name args, st =>
      match evalArgs F m time args st with
      | .error e => .error e
      | .ok (vals, st1) => evalFunction F name args vals time st1
  | .Conditional c t e, st =>
      match evalExpr F m time c st with
      | .error err => .error err
      | .ok (cv, st1) =>
          if cv > 1/2 then evalExpr F m time t st1 else evalExpr F m time e st1

/-- Left-to-right evaluation of a function-call argument list, threading the
state (the arg_values collection loop of evaluate_function). -/
def evalArgs (F : RealFuns) (m : Model) (time : ℚ) :
    List Expression → SimulationState → Except String (List ℚ × SimulationState)
  | [], st => .ok ([], st)
  | a :: rest, st =>
      match evalExpr F m time a st with
      | .error e => .error e
      | .ok (v, st1) =>
        match evalArgs F m time rest st1 with
        | .error e => .error e
        | .ok (vs, st2) => .ok (v :: vs, st2)

end

/-- Accumulator of one fixed-point pass over the auxiliaries: the evolving
auxiliary map plus the changed / any_errors flags. -/
structure AuxPassAcc where
  seed : List (String × ℚ)
  changed : Bool
  anyErrors : Bool
  deriving Repr

/-- Handling of one auxiliary inside one pass of the shared evaluate_system
fixed-point loop (RK4Integrator::evaluate_system and the identical bodies in
HeunIntegrator, BackwardEulerIntegrator and RK45Integrator,
src/simulation/integrator.rs): evaluate against the pass-start state; on
success track whether the value moved by more than 1e-10 against the evolving
map and insert; an evaluation error is fatal from pass 5 on (with a message
naming the auxiliary and the 1-based pass) and otherwise only sets any_errors. -/
def processAux (F : RealFuns) (m : Model) (time : ℚ) (passState : SimulationState) (pass : ℕ)
    (acc : AuxPassAcc) (name : String) (aux : Auxiliary) : Except String AuxPassAcc :=
  match evalExpr F m time aux.equation passState with
  | .ok (v, _) =>
      let changed := match aget acc.seed name with
        | some old => if |v - old| > 1/10000000000 then true else acc.changed
        | none => true
      .ok { seed := ainsert acc.seed name v, changed := changed, anyErrors := acc.anyErrors }
  | .error e =>
      if 5 ≤ pass then
        .error ("Error evaluating auxiliary " ++ name ++ " (pass " ++ toString (pass + 1)
          ++ "): " ++ e)
      else .ok { acc with anyErrors := true }

/-- One full pass over the auxiliary list (the inner for-loop of the shared
fixed-point iteration), folding processAux. -/
def auxPassGo (F : RealFuns) (m : Model) (time : ℚ) (passState : SimulationState) (pass : ℕ) :
    List (String × Auxiliary) → AuxPassAcc → Except String AuxPassAcc
  | [], acc => .ok acc
  | (name, aux) :: rest, acc =>
      match processAux F m time passState pass acc name aux with
      | .error e => .error e
      | .ok acc2 => auxPassGo F m time passState pass rest acc2

/-- One pass of the shared fixed-point loop starting from the given seed map:
all evaluations see the pass-start state (whose auxiliary map is the seed). -/
def auxPass (F : RealFuns) (m : Model) (time : ℚ) (state : SimulationState) (pass : ℕ)
    (seed : List (String × ℚ)) : Except String AuxPassAcc :=
  auxPassGo F m time { state with auxiliaries := seed } pass m.auxiliaries
    { seed := seed, changed := false, anyErrors := false }

/-- The shared fixed-point driver: the source loops for pass in 0..20 and
breaks early when nothing changed, nothing errored, and at least one earlier
pass had run.  The loop is written with the count of remaining passes as a
structural argument (remaining + pass = 20 at every call from
auxFixedPoint). -/
def auxLoopGo (F : RealFuns) (m : Model) (time : ℚ) (state : SimulationState) :
    ℕ → ℕ → List (String × ℚ) → Except String (List (String × ℚ))
  | 0, _, seed => .ok seed
  | remaining + 1, pass, seed =>
      match auxPass F m time state pass seed with
      | .error e => .error e
      | .ok acc =>
          if ¬acc.changed ∧ ¬acc.anyErrors ∧ 0 < pass then .ok acc.seed
          else auxLoopGo F m time state remaining (pass + 1) acc.seed

/-- The bounded fixed-point auxiliary resolution: at most 20 passes from an
initial seed. -/
def auxFixedPoint (F : RealFuns) (m : Model) (time : ℚ) (state : SimulationState)
    (seed : List (String × ℚ)) : Except String (List (String × ℚ)) :=
  auxLoopGo F m time state 20 0 seed

/-- Flow-evaluation loop of the shared evaluate_system: each flow is evaluated
against the frozen state (side effects on transient clones are discarded, as
in the source); an error is prefixed with the flow name. -/
def flowsGo (F : RealFuns) (m : Model) (time : ℚ) (evalState : SimulationState) :
    List (String × Flow) → List (String × ℚ) → Except String (List (String × ℚ))
  | [], acc => .ok acc
  | (name, flow) :: rest, acc =>
      match evalExpr F m time flow.equation evalState with
      | .error e => .error ("Error evaluating flow " ++ name ++ ": " ++ e)
      | .ok (v, _) => flowsGo F m time evalState rest (ainsert acc name v)

/-- The shared evaluate_system (auxiliaries by fixed-point iteration seeded
from the state's auxiliary map, then flows with auxiliaries frozen), as in
RK4Integrator::evaluate_system, src/simulation/integrator.rs lines 160-222. -/
def evaluateSystem (F : RealFuns) (m : Model) (state : SimulationState) (time : ℚ) :
    Except String (List (String × ℚ) × List (String × ℚ)) :=
  match auxFixedPoint F m time state state.auxiliaries with
  | .error e => .error e
  | .ok auxs =>
      match flowsGo F m time { state with auxiliaries := auxs } m.flows [] with
      | .error e => .error e
      | .ok flows => .ok (auxs, flows)

/-- Summation of a stock's inflow (kind true) or outflow (kind false) list; a
missing flow name is fatal. -/
def sumFlowList (flows : List (String × ℚ)) (stockName : String) (kind : Bool) :
    List String → ℚ → Except String ℚ
  | [], acc => .ok acc
  | fname :: rest, acc =>
      match aget flows fname with
      | some v => sumFlowList flows stockName kind rest (if kind then acc + v else acc - v)
      | none =>
          .error ((if kind then "Inflow " else "Outflow ") ++ fname
            ++ " not found for stock " ++ stockName)

/-- Derivative of one stock: sum of inflows minus sum of outflows. -/
def stockDerivative (flows : List (String × ℚ)) (stockName : String) (stock : Stock) :
    Except String ℚ :=
  match sumFlowList flows stockName true stock.inflows 0 with
  | .error e => .error e
  | .ok d1 => sumFlowList flows stockName false stock.outflows d1

/-- Fold of compute_derivatives over the stock list. -/
def computeDerivativesGo (flows : List (String × ℚ)) :
    List (String × Stock) → List (String × ℚ) → Except String (List (String × ℚ))
  | [], acc => .ok acc
  | (name, stock) :: rest, acc =>
      match stockDerivative flows name stock with
      | .error e => .error e
      | .ok d => computeDerivativesGo flows rest (ainsert acc name d)

/-- compute_derivatives (shared body of every integrator): per-stock
inflows − outflows over the model's stock list. -/
def computeDerivatives (m : Model) (flows : List (String × ℚ)) :
    Except String (List (String × ℚ)) :=
  computeDerivativesGo flows m.stocks []

/-- apply_stock_increments (shared body of RK4/Heun/RK45): add each increment
to the base state's stock where present. -/
def applyStockIncrements (base : SimulationState) (increments : List (String × ℚ)) :
    SimulationState :=
  { base with stocks := increments.foldl (fun acc nv =>
      match aget base.stocks nv.1 with
      | some cv => ainsert acc nv.1 (cv + nv.2)
      | none => acc) base.stocks }

/-- The per-stock constraint clamp every integrator applies: non_negative
clamps below at 0, then max_value clamps above; a stock absent from the model
is left unclamped. -/
def clampStock (m : Model) (name : String) (v : ℚ) : ℚ :=
  match aget m.stocks name with
  | some stock =>
      let v1 := if stock.nonNegative then max v 0 else v
      match stock.maxValue with
      | some mv => min v1 mv
      | none => v1
  | none => v

/-- One auxiliary pass of EulerIntegrator::step (src/simulation/integrator.rs
lines 25-60).  Euler evaluates each auxiliary against the evolving new state
(previous-pass auxiliary map, evolving delay substate), merges delay changes
back after each successful evaluation, and tracks changes against the separate
new_auxiliaries map; errors follow the shared pass-5 policy. -/
def eulerAuxProcess (F : RealFuns) (m : Model) (oldTime : ℚ) (pass : ℕ) :
    List (String × Auxiliary) → SimulationState → List (String × ℚ) → Bool → Bool →
    Except String (SimulationState × List (String × ℚ) × Bool × Bool)
  | [], ns, na, changed, anyErrors => .ok (ns, na, changed, anyErrors)
  | (name, aux) :: rest, ns, na, changed, anyErrors =>
      match evalExpr F m oldTime aux.equation ns with
      | .ok (v, temp2) =>
          let changed2 := match aget na name with
            | some old => if |v - old| > 1/10000000000 then true else changed
            | none => true
          eulerAuxProcess F m oldTime pass rest { ns with delays := temp2.delays }
            (ainsert na name v) changed2 anyErrors
      | .error e =>
          if 5 ≤ pass then
            .error ("Error evaluating auxiliary " ++ name ++ " (pass " ++ toString (pass + 1)
              ++ "): " ++ e)
          else eulerAuxProcess F m oldTime pass rest ns na changed true

/-- The pass driver of EulerIntegrator::step: after each pass the new state
adopts the accumulated auxiliary map; break when nothing changed, nothing
errored, and a pass has already run; at most 20 passes (remaining counts down
from 20 while pass counts up from 0). -/
def eulerAuxLoopGo (F : RealFuns) (m : Model) (oldTime : ℚ) :
    ℕ → ℕ → SimulationState → List (String × ℚ) →
    Except String (SimulationState × List (String × ℚ))
  | 0, _, ns, na => .ok (ns, na)
  | remaining + 1, pass, ns, na =>
      match eulerAuxProcess F m oldTime pass m.auxiliaries ns na false false with
      | .error e => .error e
      | .ok (ns2, na2, changed, anyErrors) =>
          let ns3 := { ns2 with auxiliaries := na2 }
          if ¬changed ∧ ¬anyErrors ∧ 0 < pass then .ok (ns3, na2)
          else eulerAuxLoopGo F m oldTime remaining (pass + 1) ns3 na2

/-- Flow loop of EulerIntegrator::step: evaluate each flow against the evolving
new state and merge delay changes back after each flow. -/
def eulerFlowsGo (F : RealFuns) (m : Model) (oldTime : ℚ) :
    List (String × Flow) → SimulationState → List (String × ℚ) →
    Except String (SimulationState × List (String × ℚ))
  | [], ns, nf => .ok (ns, nf)
  | (name, flow) :: rest, ns, nf =>
      match evalExpr F m oldTime flow.equation ns with
      | .error e => .error ("Error evaluating flow " ++ name ++ ": " ++ e)
      | .ok (v, temp2) =>
          eulerFlowsGo F m oldTime rest { ns with delays := temp2.delays } (ainsert nf name v)

/-- Stock-update fold of EulerIntegrator::step: for each entry of the old
stock map with a computed derivative, insert the clamped Euler update into the
new state's stock map. -/
def eulerUpdateStocks (m : Model) (dt : ℚ) (derivs : List (String × ℚ))
    (oldStocks : List (String × ℚ)) (cur : List (String × ℚ)) : List (String × ℚ) :=
  oldStocks.foldl (fun acc nv =>
    match aget derivs nv.1 with
    | some d => ainsert acc nv.1 (clampStock m nv.1 (nv.2 + d * dt))
    | none => acc) cur

/-- EulerIntegrator::step (src/simulation/integrator.rs lines 16-152): advance
time by dt, resolve auxiliaries by fixed-point iteration at the old step time,
evaluate flows, integrate each stock with the per-stock clamp, then update the
delay substate — each exponential delay is updated with its own current value
as input (the source's placeholder), and each pipeline delay is pushed the
placeholder input 0.0 at the new time. -/
def eulerStep (F : RealFuns) (m : Model) (state : SimulationState) (dt : ℚ) :
    Except String SimulationState :=
  let ns0 := { state with time := state.time + dt }
  match eulerAuxLoopGo F m state.time 20 0 ns0 [] with
  | .error e => .error e
  | .ok (ns1, _) =>
      match eulerFlowsGo F m state.time m.flows ns1 [] with
      | .error e => .error e
      | .ok (ns2, nf) =>
          let ns3 := { ns2 with flows := nf }
          match computeDerivatives m ns3.flows with
          | .error e => .error e
          | .ok derivs =>
              let ns4 := { ns3 with
                stocks := eulerUpdateStocks m dt derivs state.stocks ns3.stocks }
              let delayInputs := ns4.delays.exponentialDelays.map (fun kd => (kd.1, kd.2.value))
              let dm1 := ns4.delays.updateAllExponential delayInputs dt
              let dm2 := { dm1 with pipelineDelays := dm1.pipelineDelays.map (fun kp =>
                (kp.1, kp.2.push ns4.time 0)) }
              .ok { ns4 with delays := dm2 }

/-- Weighted RK4 stock update: for every old stock, the classical
(k1 + 2k2 + 2k3 + k4)/6 combination, clamped. -/
def rk4UpdateStocks (m : Model) (dt : ℚ) (k1 k2 k3 k4 : List (String × ℚ))
    (oldStocks cur : List (String × ℚ)) : List (String × ℚ) :=
  oldStocks.foldl (fun acc nv =>
    let d1 := (aget k1 nv.1).getD 0
    let d2 := (aget k2 nv.1).getD 0
    let d3 := (aget k3 nv.1).getD 0
    let d4 := (aget k4 nv.1).getD 0
    ainsert acc nv.1 (clampStock m nv.1 (nv.2 + (d1 + 2 * d2 + 2 * d3 + d4) * dt / 6))) cur

/-- RK4Integrator::step (src/simulation/integrator.rs lines 279-354): four
staged system evaluations, the weighted stock update with clamps, and the
final stage's auxiliaries and flows. -/
def rk4Step (F : RealFuns) (m : Model) (state : SimulationState) (dt : ℚ) :
    Except String SimulationState :=
  let t := state.time
  match evaluateSystem F m state t with
  | .error e => .error e
  | .ok (_, flows1) =>
    match computeDerivatives m flows1 with
    | .error e => .error e
    | .ok k1 =>
      let state2 := applyStockIncrements state (k1.map (fun nd => (nd.1, nd.2 * dt / 2)))
      match evaluateSystem F m state2 (t + dt / 2) with
      | .error e => .error e
      | .ok (_, flows2) =>
        match computeDerivatives m flows2 with
        | .error e => .error e
        | .ok k2 =>
          let state3 := applyStockIncrements state (k2.map (fun nd => (nd.1, nd.2 * dt / 2)))
          match evaluateSystem F m state3 (t + dt / 2) with
          | .error e => .error e
          | .ok (_, flows3) =>
            match computeDerivatives m flows3 with
            | .error e => .error e
            | .ok k3 =>
              let state4 := applyStockIncrements state (k3.map (fun nd => (nd.1, nd.2 * dt)))
              match evaluateSystem F m state4 (t + dt) with
              | .error e => .error e
              | .ok (aux4, flows4) =>
                match computeDerivatives m flows4 with
                | .error e => .error e
                | .ok k4 =>
                    .ok { state with
                      time := state.time + dt,
                      stocks := rk4UpdateStocks m dt k1 k2 k3 k4 state.stocks state.stocks,
                      auxiliaries := aux4,
                      flows := flows4 }

/-- Heun stock update: the (k1 + k2)/2 corrector combination, clamped. -/
def heunUpdateStocks (m : Model) (dt : ℚ) (k1 k2 : List (String × ℚ))
    (oldStocks cur : List (String × ℚ)) : List (String × ℚ) :=
  oldStocks.foldl (fun acc nv =>
    let d1 := (aget k1 nv.1).getD 0
    let d2 := (aget k2 nv.1).getD 0
    ainsert acc nv.1 (clampStock m nv.1 (nv.2 + (d1 + d2) * dt / 2))) cur

/-- HeunIntegrator::step (src/simulation/integrator.rs lines 473-528):
predictor at t, corrector at t + dt on the predicted state, averaged update
with clamps, corrector-stage auxiliaries and flows. -/
def heunStep (F : RealFuns) (m : Model) (state : SimulationState) (dt : ℚ) :
    Except String SimulationState :=
  let t := state.time
  match evaluateSystem F m state t with
  | .error e => .error e
  | .ok (_, flows1) =>
    match computeDerivatives m flows1 with
    | .error e => .error e
    | .ok k1 =>
      let statePred := applyStockIncrements state (k1.map (fun nd => (nd.1, nd.2 * dt)))
      match evaluateSystem F m statePred (t + dt) with
      | .error e => .error e
      | .ok (aux2, flows2) =>
        match computeDerivatives m flows2 with
        | .error e => .error e
        | .ok k2 =>
            .ok { state with
              time := state.time + dt,
              stocks := heunUpdateStocks m dt k1 k2 state.stocks state.stocks,
              auxiliaries := aux2,
              flows := flows2 }

/-- Parameters of BackwardEulerIntegrator (max_iterations 20, tolerance 1e-6
by default). -/
structure BackwardEulerParams where
  maxIterations : ℕ
  tolerance : ℚ
  deriving Repr, DecidableEq

/-- BackwardEulerIntegrator::default. -/
def BackwardEulerParams.dfl : BackwardEulerParams :=
  { maxIterations := 20, tolerance := 1/1000000 }

/-- One fixed-point stock update of Backward Euler: for every old stock with a
derivative, the clamped implicit update, tracking the maximum change against
the current iterate. -/
def beUpdateStocks (m : Model) (dt : ℚ) (derivs : List (String × ℚ))
    (oldStocks : List (String × ℚ)) (currentStocks : List (String × ℚ)) :
    List (String × ℚ) × ℚ :=
  oldStocks.foldl (fun acc nv =>
    match aget derivs nv.1 with
    | some d =>
        let clamped := clampStock m nv.1 (nv.2 + d * dt)
        let mc := match aget currentStocks nv.1 with
          | some cv => max acc.2 |clamped - cv|
          | none => acc.2
        (ainsert acc.1 nv.1 clamped, mc)
    | none => acc) (currentStocks, 0)

/-- Fixed-point iteration of BackwardEulerIntegrator::step: evaluate at the
current guess at t + dt, recompute the implicit update with clamps, stop when
the maximum change is below tolerance after at least one iteration; exhausting
max_iterations returns the best guess (the source warns out of band). -/
def beLoopGo (F : RealFuns) (m : Model) (p : BackwardEulerParams)
    (oldStocks : List (String × ℚ)) (dt tNext : ℚ) :
    ℕ → ℕ → SimulationState → Except String SimulationState
  | 0, _, current => .ok current
  | remaining + 1, iteration, current =>
      match evaluateSystem F m current tNext with
      | .error e => .error e
      | .ok (auxs, flows) =>
        match computeDerivatives m flows with
        | .error e => .error e
        | .ok derivs =>
            let sm := beUpdateStocks m dt derivs oldStocks current.stocks
            let next := { current with stocks := sm.1, auxiliaries := auxs, flows := flows }
            if sm.2 < p.tolerance ∧ 0 < iteration then .ok next
            else beLoopGo F m p oldStocks dt tNext remaining (iteration + 1) next

/-- BackwardEulerIntegrator::step (src/simulation/integrator.rs lines
652-725): an explicit-Euler initial guess (unclamped) at t + dt, then the
fixed-point iteration. -/
def beStep (F : RealFuns) (m : Model) (p : BackwardEulerParams) (state : SimulationState)
    (dt : ℚ) : Except String SimulationState :=
  let tNext := state.time + dt
  match evaluateSystem F m state state.time with
  | .error e => .error e
  | .ok (_, flows0) =>
    match computeDerivatives m flows0 with
    | .error e => .error e
    | .ok deriv0 =>
        let guessStocks := state.stocks.foldl (fun acc nv =>
          match aget deriv0 nv.1 with
          | some d => ainsert acc nv.1 (nv.2 + d * dt)
          | none => acc) state.stocks
        beLoopGo F m p state.stocks dt tNext p.maxIterations 0
          { state with time := tNext, stocks := guessStocks }

/-- Parameters of RK45Integrator (defaults rtol 1e-6, atol 1e-8, min_step
1e-10, max_step 1, safety_factor 0.9). -/
structure RK45Params where
  rtol : ℚ
  atol : ℚ
  minStep : ℚ
  maxStep : ℚ
  safetyFactor : ℚ
  deriving Repr, DecidableEq

/-- RK45Integrator::default. -/
def RK45Params.dfl : RK45Params :=
  { rtol := 1/1000000, atol := 1/100000000, minStep := 1/10000000000,
    maxStep := 1, safetyFactor := 9/10 }

/-- RK45Integrator::compute_error_and_step (src/simulation/integrator.rs lines
884-911): the maximum over stocks of |y5 − y4| normalized by
atol + rtol·max(|y4|, |y5|), and the next step size — safety·h·(1/err)^0.2 for
a positive error, doubled otherwise — clamped into [min_step, max_step]. -/
def computeErrorAndStep (F : RealFuns) (p : RK45Params) (y4 y5 : List (String × ℚ))
    (currentStep : ℚ) : ℚ × ℚ :=
  let maxError := y4.foldl (fun acc nv =>
    match aget y5 nv.1 with
    | some val5 => max acc (|val5 - nv.2| / (p.atol + p.rtol * max |val5| |nv.2|))
    | none => acc) 0
  let newStep := if maxError > 0 then
      p.safetyFactor * currentStep * F.powf (1 / maxError) (1/5)
    else currentStep * 2
  (maxError, min (max newStep p.minStep) p.maxStep)

/-- Linear combination of staged derivatives for one stock name, with absent
entries defaulting to 0 (the k_i.get(name).unwrap_or(&0.0) pattern). -/
def kComb (coeffs : List (ℚ × List (String × ℚ))) (name : String) : ℚ :=
  coeffs.foldl (fun acc cd => acc + cd.1 * (aget cd.2 name).getD 0) 0

/-- Dormand–Prince stage increments built over the k1 key list, as the source
maps over k1.iter(). -/
def rk45Increments (h : ℚ) (k1 : List (String × ℚ)) (coeffs : List (ℚ × List (String × ℚ))) :
    List (String × ℚ) :=
  k1.map (fun nd => (nd.1, kComb coeffs nd.1 * h))

/-- The staged derivative data of one RK45 attempt: the derivative maps the
solution combinations need, and the stage-7 auxiliaries and flows. -/
structure RK45StageData where
  k1 : List (String × ℚ)
  k3 : List (String × ℚ)
  k4 : List (String × ℚ)
  k5 : List (String × ℚ)
  k6 : List (String × ℚ)
  k7 : List (String × ℚ)
  aux7 : List (String × ℚ)
  flows7 : List (String × ℚ)
  deriving Repr, DecidableEq

/-- The seven Dormand–Prince stage evaluations of RK45Integrator::step. -/
def rk45Stages (F : RealFuns) (m : Model) (state : SimulationState)
    (t h : ℚ) : Except String RK45StageData :=
  match evaluateSystem F m state t with
  | .error e => .error e
  | .ok (_, flows1) =>
    match computeDerivatives m flows1 with
    | .error e => .error e
    | .ok k1 =>
      let state2 := applyStockIncrements state (rk45Increments h k1 [(1/5, k1)])
      match evaluateSystem F m state2 (t + h / 5) with
      | .error e => .error e
      | .ok (_, flows2) =>
        match computeDerivatives m flows2 with
        | .error e => .error e
        | .ok k2 =>
          let state3 := applyStockIncrements state
            (rk45Increments h k1 [(3/40, k1), (9/40, k2)])
          match evaluateSystem F m state3 (t + 3 * h / 10) with
          | .error e => .error e
          | .ok (_, flows3) =>
            match computeDerivatives m flows3 with
            | .error e => .error e
            | .ok k3 =>
              let state4 := applyStockIncrements state
                (rk45Increments h k1 [(44/45, k1), (-56/15, k2), (32/9, k3)])
              match evaluateSystem F m state4 (t + 4 * h / 5) with
              | .error e => .error e
              | .ok (_, flows4) =>
                match computeDerivatives m flows4 with
                | .error e => .error e
                | .ok k4 =>
                  let state5 := applyStockIncrements state
                    (rk45Increments h k1
                      [(19372/6561, k1), (-25360/2187, k2), (64448/6561, k3), (-212/729, k4)])
                  match evaluateSystem F m state5 (t + 8 * h / 9) with
                  | .error e => .error e
                  | .ok (_, flows5) =>
                    match computeDerivatives m flows5 with
                    | .error e => .error e
                    | .ok k5 =>
                      let state6 := applyStockIncrements state
                        (rk45Increments h k1
                          [(9017/3168, k1), (-355/33, k2), (46732/5247, k3),
                           (49/176, k4), (-5103/18656, k5)])
                      match evaluateSystem F m state6 (t + h) with
                      | .error e => .error e
                      | .ok (_, flows6) =>
                        match computeDerivatives m flows6 with
                        | .error e => .error e
                        | .ok k6 =>
                          let state7 := applyStockIncrements state
                            (rk45Increments h k1
                              [(35/384, k1), (500/1113, k3), (125/192, k4),
                               (-2187/6784, k5), (11/84, k6)])
                          match evaluateSystem F m state7 (t + h) with
                          | .error e => .error e
                          | .ok (aux7, flows7) =>
                            match computeDerivatives m flows7 with
                            | .error e => .error e
                            | .ok k7 =>
                                .ok ⟨k1, k3, k4, k5, k6, k7, aux7, flows7⟩

/-- One RK45 attempt at step size h (the body of the attempt loop of
RK45Integrator::step): the seven Dormand–Prince stages, the 5th- and 4th-order
solutions, the normalized error with the next step size, and the accepted
state (clamped 5th-order stocks, stage-7 auxiliaries and flows, time t + h). -/
def rk45Attempt (F : RealFuns) (m : Model) (p : RK45Params) (state : SimulationState)
    (t h : ℚ) : Except String (ℚ × ℚ × SimulationState) :=
  match rk45Stages F m state t h with
  | .error e => .error e
  | .ok sd =>
      let y5 := state.stocks.map (fun nv => (nv.1, nv.2 +
        kComb [(35/384, sd.k1), (500/1113, sd.k3), (125/192, sd.k4),
          (-2187/6784, sd.k5), (11/84, sd.k6)] nv.1 * h))
      let y4 := state.stocks.map (fun nv => (nv.1, nv.2 +
        kComb [(5179/57600, sd.k1), (7571/16695, sd.k3), (393/640, sd.k4),
          (-92097/339200, sd.k5), (187/2100, sd.k6), (1/40, sd.k7)] nv.1 * h))
      let es := computeErrorAndStep F p y4 y5 h
      let accepted := { state with
        time := t + h,
        stocks := y5.foldl (fun acc nv =>
          ainsert acc nv.1 (clampStock m nv.1 nv.2)) state.stocks,
        auxiliaries := sd.aux7,
        flows := sd.flows7 }
      .ok (es.1, es.2, accepted)

/-- The attempt loop of RK45Integrator::step: accept when the normalized error
is at most 1, otherwise retry from the same starting state with the new step
size, failing if it fell below min_step; exhausting the attempts fails. -/
def rk45Go (F : RealFuns) (m : Model) (p : RK45Params) (state : SimulationState) (t : ℚ) :
    ℕ → ℚ → Except String SimulationState
  | 0, _ => .error "RK45 failed to converge after maximum attempts"
  | n + 1, h =>
      match rk45Attempt F m p state t h with
      | .error e => .error e
      | .ok (err, newH, accepted) =>
          if err ≤ 1 then .ok accepted
          else if newH < p.minStep then
            .error ("Step size (" ++ toString newH ++ ") below minimum ("
              ++ toString p.minStep ++ "). Error: " ++ toString err)
          else rk45Go F m p state t n newH

/-- RK45Integrator::step (src/simulation/integrator.rs lines 915-1103): up to
10 attempts starting from h = min(dt, max_step). -/
def rk45Step (F : RealFuns) (m : Model) (p : RK45Params) (state : SimulationState) (dt : ℚ) :
    Except String SimulationState :=
  rk45Go F m p state state.time 10 (min dt p.maxStep)

/-- Integration method selector (the five variants engine.rs dispatches on). -/
inductive IntegrationMethod where
  | Euler | RK4 | RK45 | Heun | BackwardEuler
  deriving Repr, DecidableEq

/-- Simulation configuration (src/simulation/mod.rs, struct SimulationConfig). -/
structure SimulationConfig where
  integrationMethod : IntegrationMethod
  outputInterval : Option ℚ
  deriving Repr, DecidableEq

/-- SimulationConfig::default — Euler, no output decimation. -/
def SimulationConfig.dfl : SimulationConfig :=
  { integrationMethod := .Euler, outputInterval := none }

/-- The integrator dispatch shared by SimulationEngine::run and ::step:
RK45 and Backward Euler use their default parameters. -/
def integratorStep (F : RealFuns) (method : IntegrationMethod) (m : Model)
    (state : SimulationState) (dt : ℚ) : Except String SimulationState :=
  match method with
  | .Euler => eulerStep F m state dt
  | .RK4 => rk4Step F m state dt
  | .RK45 => rk45Step F m RK45Params.dfl state dt
  | .Heun => heunStep F m state dt
  | .BackwardEuler => beStep F m BackwardEulerParams.dfl state dt

/-- Stock-initialization fold of SimulationState::initialize_from_model:
evaluate each initial expression against the state built so far (the source
holds the state immutably here, so evaluation side effects are dropped). -/
def initStocksGo (F : RealFuns) (m : Model) (start : ℚ) :
    List (String × Stock) → SimulationState → Except String SimulationState
  | [], st => .ok st
  | (name, stock) :: rest, st =>
      match evalExpr F m start stock.initial st with
      | .error e => .error e
      | .ok (v, _) => initStocksGo F m start rest { st with stocks := ainsert st.stocks name v }

/-- SimulationState::initialize_from_model (src/simulation/mod.rs lines
31-56): time at start, stocks from their initial expressions, flows and
auxiliaries zeroed. -/
def initFromModel (F : RealFuns) (m : Model) : Except String SimulationState :=
  match initStocksGo F m m.time.start m.stocks
      { SimulationState.mkNew with time := m.time.start } with
  | .error e => .error e
  | .ok st =>
      .ok { st with
        flows := m.flows.foldl (fun acc nf => ainsert acc nf.1 0) [],
        auxiliaries := m.auxiliaries.foldl (fun acc na => ainsert acc na.1 0) [] }

/-- Results container (src/simulation/mod.rs, struct SimulationResults). -/
structure SimulationResults where
  times : List ℚ
  states : List SimulationState
  deriving Repr, DecidableEq

/-- SimulationResults::add_point. -/
def SimulationResults.addPoint (r : SimulationResults) (t : ℚ) (s : SimulationState) :
    SimulationResults :=
  { times := r.times ++ [t], states := r.states ++ [s] }

/-- SimulationResults::get_variable_series: per recorded state, the variable
from stocks, then flows, then auxiliaries; none if any state lacks it. -/
def getVariableSeries (r : SimulationResults) (varName : String) : Option (List ℚ) :=
  let step := fun (st : SimulationState) =>
    match aget st.stocks varName with
    | some v => some v
    | none =>
      match aget st.flows varName with
      | some v => some v
      | none => aget st.auxiliaries varName
  let vals := r.states.map step
  if vals.all Option.isSome then some (vals.map (fun o => o.getD 0)) else none

/-- The while-loop of SimulationEngine::run (src/simulation/engine.rs lines
44-67), with explicit fuel bounding the number of iterations (the source loop
is unbounded; every theorem below supplies enough fuel).  Each iteration takes
one integrator step of size dt, clamps the time at stop, and records according
to the output-interval policy. -/
def runLoop (F : RealFuns) (m : Model) (cfg : SimulationConfig) :
    ℕ → SimulationState → SimulationResults → Except String (SimulationResults × SimulationState)
  | fuel, state, results =>
    if state.time < m.time.stop then
      match fuel with
      | 0 => .error "run loop fuel exhausted"
      | fuel + 1 =>
        match integratorStep F cfg.integrationMethod m state m.time.dt with
        | .error e => .error e
        | .ok s1 =>
          let s2 := if s1.time > m.time.stop then { s1 with time := m.time.stop } else s1
          let shouldRecord : Bool := match cfg.outputInterval with
            | some interval => decide (⌊s2.time / interval⌋ > ⌊(s2.time - m.time.dt) / interval⌋)
            | none => true
          runLoop F m cfg fuel s2 (if shouldRecord then results.addPoint s2.time s2 else results)
    else .ok (results, state)

/-- SimulationEngine::new followed by ::run: initialize from the model, record
the initial state, loop until the time reaches stop.  Returns the results and
the engine's final current state. -/
def engineRun (F : RealFuns) (m : Model) (cfg : SimulationConfig) (fuel : ℕ) :
    Except String (SimulationResults × SimulationState) :=
  match initFromModel F m with
  | .error e => .error e
  | .ok st0 => runLoop F m cfg fuel st0 { times := [st0.time], states := [st0] }

/-- SimulationEngine::step (src/simulation/engine.rs lines 72-83): one
integrator step of size dt on the current state. -/
def engineStepOnce (F : RealFuns) (m : Model) (cfg : SimulationConfig)
    (state : SimulationState) : Except String SimulationState :=
  integratorStep F cfg.integrationMethod m state m.time.dt

/-- N invocations of SimulationEngine::step from a given state. -/
def engineStepN (F : RealFuns) (m : Model) (cfg : SimulationConfig) :
    ℕ → SimulationState → Except String SimulationState
  | 0, state => .ok state
  | n + 1, state =>
      match engineStepOnce F m cfg state with
      | .error e => .error e
      | .ok s1 => engineStepN F m cfg n s1

/-- Constructor shorthand for a Stock (Stock::new plus the builder setters). -/
def mkStock (name : String) (initial : Expression) (inflows outflows : List String)
    (nonNeg : Bool) (maxV : Option ℚ) : Stock :=
  { name := name, initial := initial, inflows := inflows, outflows := outflows,
    nonNegative := nonNeg, maxValue := maxV }

/-- Constructor shorthand for a Flow (Flow::new with a pre-parsed equation). -/
def mkFlow (name : String) (eq : Expression) : Flow := { name := name, equation := eq }

/-- Constructor shorthand for an Auxiliary. -/
def mkAux (name : String) (eq : Expression) : Auxiliary := { name := name, equation := eq }

/-- Constructor shorthand for a Model (Model::new plus the add_* insertions in
list order; the uniqueness checks of add_* are the key-uniqueness of the
lists). -/
def mkModel (tc : TimeConfig) (stocks : List (String × Stock)) (flows : List (String × Flow))
    (auxs : List (String × Auxiliary)) (params : List (String × Parameter)) : Model :=
  { time := tc, stocks := stocks, flows := flows, auxiliaries := auxs, parameters := params,
    lookups := [] }

/-- The model of claim C1 and of the test test_euler_simple_growth: stock
Population initial 100 with sole inflow growth = Population * r, parameter
r = 0.1, start 0, stop 1, dt 1. -/
def modelGrowth : Model :=
  mkModel { start := 0, stop := 1, dt := 1 }
    [("Population", mkStock "Population" (.Constant 100) ["growth"] [] false none)]
    [("growth", mkFlow "growth" (.BinaryOp .Multiply (.Variable "Population") (.Variable "r")))]
    [] [("r", { name := "r", value := 1/10 })]

/-- The model of claim C2: stock S fed by the single flow
d = DELAY1(1.0, 10, 0), start 0, stop 50, dt 0.1. -/
def modelDelay : Model :=
  mkModel { start := 0, stop := 50, dt := 1/10 }
    [("S", mkStock "S" (.Constant 0) ["d"] [] false none)]
    [("d", mkFlow "d" (.FunctionCall "DELAY1" [.Constant 1, .Constant 10, .Constant 0]))]
    [] []

/-- Counterexample model for claim C3: a non_negative stock whose initial
expression is −5, with stop = start so that only the initial state is
recorded. -/
def modelTankNeg : Model :=
  mkModel { start := 0, stop := 0, dt := 1 }
    [("Tank", mkStock "Tank" (.Constant (-5)) [] [] true none)] [] [] []

/-- The Tank model of claim C3 / scenario 6: initial 5, constant outflow 10,
non_negative, one Euler step of dt 1. -/
def modelTank : Model :=
  mkModel { start := 0, stop := 1, dt := 1 }
    [("Tank", mkStock "Tank" (.Constant 5) [] ["drain"] true none)]
    [("drain", mkFlow "drain" (.Constant 10))] [] []

/-- Counterexample model for claim C8: a single inert stock with dt = 2 above
the RK45 default max_step of 1, start 0, stop 2. -/
def modelInert : Model :=
  mkModel { start := 0, stop := 2, dt := 2 }
    [("X", mkStock "X" (.Constant 0) [] [] false none)] [] [] []

/-- RK45 engine configuration. -/
def cfgRK45 : SimulationConfig := { integrationMethod := .RK45, outputInterval := none }

/-- The state the growth model initializes to. -/
def stGrowth0 : SimulationState :=
  { time := 0, stocks := [("Population", 100)], flows := [("growth", 0)],
    auxiliaries := [], delays := DelayManager.mkNew }

/-- The growth model state after one Euler step of dt 1. -/
def stGrowth1 : SimulationState :=
  { time := 1, stocks := [("Population", 110)], flows := [("growth", 10)],
    auxiliaries := [], delays := DelayManager.mkNew }

/-- The run loop returns immediately once the time has reached stop. -/
theorem runLoop_stop (F : RealFuns) (m : Model) (cfg : SimulationConfig) (fuel : ℕ)
    (state : SimulationState) (results : SimulationResults)
    (h : ¬ state.time < m.time.stop) :
    runLoop F m cfg fuel state results = .ok (results, state) := by
  rw [runLoop.eq_def]
  simp [h]

/-- One unfolding of the run loop in the common case: time below stop, a
successful integrator step that does not overshoot, and no output interval
(record every step). -/
theorem runLoop_next (F : RealFuns) (m : Model) (cfg : SimulationConfig) (fuel : ℕ)
    (state : SimulationState) (results : SimulationResults) (s1 : SimulationState)
    (h : state.time < m.time.stop)
    (hstep : integratorStep F cfg.integrationMethod m state m.time.dt = .ok s1)
    (hcl : ¬ s1.time > m.time.stop)
    (hrec : cfg.outputInterval = none) :
    runLoop F m cfg (fuel + 1) state results
      = runLoop F m cfg fuel s1 (results.addPoint s1.time s1) := by
  conv_lhs => rw [runLoop.eq_def]
  simp [h, hstep, hcl, hrec]

/-- C1: running the engine with the Euler integrator on the model with stock
Population (initial 100), parameter r = 0.1 and sole inflow
growth = Population * r, from start 0 to stop 1 with dt 1, records exactly the
initial state and one stepped state, and the final recorded Population is
exactly 110 = 100 + 1·(100·0.1); the flow is evaluated at the starting time
with the old stock values.  Holds for every RealFuns instance. -/
theorem euler_growth_final_population (F : RealFuns) :
    (engineRun F modelGrowth SimulationConfig.dfl 2).map
      (fun p => p.1.states.map (fun s => aget s.stocks "Population"))
      = .ok [some 100, some 110] := by
  have h0 : initFromModel F modelGrowth = .ok stGrowth0 := by with_unfolding_all rfl
  have h1 : integratorStep F SimulationConfig.dfl.integrationMethod modelGrowth stGrowth0
      modelGrowth.time.dt = .ok stGrowth1 := by with_unfolding_all rfl
  have h2 : stGrowth0.time < modelGrowth.time.stop := by with_unfolding_all decide
  have h3 : ¬ stGrowth1.time > modelGrowth.time.stop := by with_unfolding_all decide
  have h4 : ¬ stGrowth1.time < modelGrowth.time.stop := by with_unfolding_all decide
  simp only [engineRun, h0]
  rw [runLoop_next F modelGrowth SimulationConfig.dfl 1 stGrowth0 _ stGrowth1 h2 h1 h3 rfl,
    runLoop_stop F modelGrowth SimulationConfig.dfl 1 stGrowth1 _ h4]
  with_unfolding_all rfl

/-- C4: variable resolution order.  TIME (case-insensitively) resolves to the
context time; otherwise parameters, then stocks, then flows, then auxiliaries,
first hit winning; a full miss is an error naming the variable. -/
theorem variable_resolution_order (m : Model) (st : SimulationState) (time : ℚ)
    (name : String) :
    (strToUpper name = "TIME" → ctxGetVariable m time name st = .ok time)
  ∧ (strToUpper name ≠ "TIME" → ∀ p, aget m.parameters name = some p →
      ctxGetVariable m time name st = .ok p.value)
  ∧ (strToUpper name ≠ "TIME" → aget m.parameters name = none →
      ∀ v, aget st.stocks name = some v → ctxGetVariable m time name st = .ok v)
  ∧ (strToUpper name ≠ "TIME" → aget m.parameters name = none → aget st.stocks name = none →
      ∀ v, aget st.flows name = some v → ctxGetVariable m time name st = .ok v)
  ∧ (strToUpper name ≠ "TIME" → aget m.parameters name = none → aget st.stocks name = none →
      aget st.flows name = none →
      ∀ v, aget st.auxiliaries name = some v → ctxGetVariable m time name st = .ok v)
  ∧ (strToUpper name ≠ "TIME" → aget m.parameters name = none → aget st.stocks name = none →
      aget st.flows name = none → aget st.auxiliaries name = none →
      ctxGetVariable m time name st = .error ("Variable " ++ name ++ " not found")) := by
  refine ⟨fun h => ?_, fun h p hp => ?_, fun h hp v hv => ?_, fun h hp hs v hv => ?_,
    fun h hp hs hf v hv => ?_, fun h hp hs hf ha => ?_⟩ <;>
    simp [ctxGetVariable, Model.getVariable, *]

/-- Witness for C4 at concrete inputs: a state and model where the name time
(lowercase) resolves to the context time, a name present both as parameter and
stock resolves to the parameter, and an unknown name errors. -/
theorem variable_resolution_order_witness :
    ctxGetVariable (mkModel TimeConfig.dfl [] [] [] [("x", { name := "x", value := 7 })]) 3
        "time" { SimulationState.mkNew with stocks := [("x", 2)] } = .ok 3
  ∧ ctxGetVariable (mkModel TimeConfig.dfl [] [] [] [("x", { name := "x", value := 7 })]) 3
        "x" { SimulationState.mkNew with stocks := [("x", 2)] } = .ok 7
  ∧ ctxGetVariable (mkModel TimeConfig.dfl [] [] [] [("x", { name := "x", value := 7 })]) 3
        "y" { SimulationState.mkNew with stocks := [("x", 2)] }
      = .error ("Variable " ++ "y" ++ " not found") := by
  refine ⟨(variable_resolution_order _ _ _ _).1 (by decide),
    (variable_resolution_order _ _ _ _).2.1 (by decide) _ (by rfl),
    (variable_resolution_order _ _ _ _).2.2.2.2.2 (by decide) (by rfl) (by rfl) (by rfl)
      (by rfl)⟩

/-- C10: on every RealFuns instance and all rational operands, == evaluates to
1.0 exactly when |a − b| < 1e-10 and != evaluates to 1.0 exactly when
|a − b| ≥ 1e-10, and the two comparison results always sum to 1. -/
theorem equality_operators_complementary (F : RealFuns) (a b : ℚ) :
    (applyBinOp F .Equal a b = .ok 1 ↔ |a - b| < 1/10000000000)
  ∧ (applyBinOp F .NotEqual a b = .ok 1 ↔ |a - b| ≥ 1/10000000000)
  ∧ ∃ x y, applyBinOp F .Equal a b = .ok x ∧ applyBinOp F .NotEqual a b = .ok y
      ∧ x + y = 1 := by
  by_cases h : |a - b| < 1/10000000000
  · have h2 : ¬ (|a - b| ≥ 1/10000000000) := not_le.mpr h
    refine ⟨?_, ?_, 1, 0, ?_, ?_, by norm_num⟩
    · simp only [applyBinOp, if_pos h]
      exact ⟨fun _ => h, fun _ => trivial⟩
    · simp only [applyBinOp, if_neg h2]
      refine ⟨fun hc => ?_, fun hge => absurd hge h2⟩
      injection hc with hv
      exact absurd hv (by norm_num)
    · simp only [applyBinOp, if_pos h]
    · simp only [applyBinOp, if_neg h2]
  · have h2 : |a - b| ≥ 1/10000000000 := le_of_not_lt h
    refine ⟨?_, ?_, 0, 1, ?_, ?_, by norm_num⟩
    · simp only [applyBinOp, if_neg h]
      refine ⟨fun hc => ?_, fun hlt => absurd hlt h⟩
      injection hc with hv
      exact absurd hv (by norm_num)
    · simp only [applyBinOp, if_pos h2]
      exact ⟨fun _ => h2, fun _ => trivial⟩
    · simp only [applyBinOp, if_neg h]
    · simp only [applyBinOp, if_pos h2]

/-- The state the Tank counterexample model initializes to: the initial
expression −5 is stored without any clamping. -/
def stTankNeg0 : SimulationState :=
  { time := 0, stocks := [("Tank", -5)], flows := [], auxiliaries := [],
    delays := DelayManager.mkNew }

/-- C3 counterexample: a successful run records the initial state verbatim,
so a non_negative stock whose initial expression is −5 appears with value −5
in the recorded results — the claimed invariant fails at the recorded initial
state. -/
theorem nonneg_invariant_counterexample :
    (aget modelTankNeg.stocks "Tank").map Stock.nonNegative = some true
  ∧ (engineRun F0 modelTankNeg SimulationConfig.dfl 0).map
      (fun p => p.1.states.map (fun s => aget s.stocks "Tank")) = .ok [some (-5)]
  ∧ ¬ (0 : ℚ) ≤ -5 := by
  refine ⟨by with_unfolding_all rfl, ?_, by norm_num⟩
  have h0 : initFromModel F0 modelTankNeg = .ok stTankNeg0 := by with_unfolding_all rfl
  have h1 : ¬ stTankNeg0.time < modelTankNeg.time.stop := by with_unfolding_all decide
  simp only [engineRun, h0]
  rw [runLoop_stop F0 modelTankNeg SimulationConfig.dfl 0 stTankNeg0 _ h1]
  with_unfolding_all rfl

/-- The state the inert RK45 counterexample model initializes to. -/
def stInert0 : SimulationState :=
  { time := 0, stocks := [("X", 0)], flows := [], auxiliaries := [],
    delays := DelayManager.mkNew }

/-- The inert model after one RK45 step: the step advances time by
h = min(dt, max_step) = 1, not by dt = 2. -/
def stInert1 : SimulationState :=
  { time := 1, stocks := [("X", 0)], flows := [], auxiliaries := [],
    delays := DelayManager.mkNew }

/-- The inert model after two RK45 steps. -/
def stInert2 : SimulationState :=
  { time := 2, stocks := [("X", 0)], flows := [], auxiliaries := [],
    delays := DelayManager.mkNew }

set_option maxHeartbeats 1000000 in
/-- C8 counterexample: with the RK45 method and dt = 2 above the default
max_step = 1, (stop − start)/dt = 1 whole step, yet run() takes two steps of
size 1 and ends at time 2 while one step() invocation ends at time 1 — the
final states differ, so the claim fails for the RK45 configuration. -/
theorem run_vs_stepn_counterexample :
    (modelInert.time.stop - modelInert.time.start) / modelInert.time.dt = ((1 : ℕ) : ℚ)
  ∧ (engineRun F0 modelInert cfgRK45 2).map (fun p => p.2.time) = .ok 2
  ∧ ((initFromModel F0 modelInert).bind (engineStepN F0 modelInert cfgRK45 1)).map
      (fun s => s.time) = .ok 1
  ∧ (2 : ℚ) ≠ 1 := by
  have h0 : initFromModel F0 modelInert = .ok stInert0 := by with_unfolding_all rfl
  have hs1 : integratorStep F0 cfgRK45.integrationMethod modelInert stInert0
      modelInert.time.dt = .ok stInert1 := by with_unfolding_all rfl
  have hs2 : integratorStep F0 cfgRK45.integrationMethod modelInert stInert1
      modelInert.time.dt = .ok stInert2 := by with_unfolding_all rfl
  refine ⟨by norm_num [modelInert, mkModel], ?_, ?_, by norm_num⟩
  · simp only [engineRun, h0]
    rw [runLoop_next F0 modelInert cfgRK45 1 stInert0 _ stInert1
        (by with_unfolding_all decide) hs1 (by with_unfolding_all decide) rfl,
      runLoop_next F0 modelInert cfgRK45 0 stInert1 _ stInert2
        (by with_unfolding_all decide) hs2 (by with_unfolding_all decide) rfl,
      runLoop_stop F0 modelInert cfgRK45 0 stInert2 _ (by with_unfolding_all decide)]
    rfl
  · simp only [h0, Except.bind, engineStepN, engineStepOnce, hs1]
    rfl

/-- A constructible lookup table with an interior duplicated x-coordinate. -/
def dupTable : LookupTable :=
  { name := "dup", points := [(0, 0), (1, 5), (1, 7), (2, 9)] }

/-- C9 counterexample: the constructor accepts duplicated x-coordinates
(non-decreasing is enough), (1, 7) is a breakpoint of the table, yet looking
up x = 1 returns 5 — the first bracket wins — not that breakpoint's y. -/
theorem lookup_breakpoint_counterexample :
    LookupTable.mkNew "dup" [(0, 0), (1, 5), (1, 7), (2, 9)] = .ok dupTable
  ∧ dupTable.points.get? 2 = some (1, 7)
  ∧ dupTable.lookup 1 = 5
  ∧ (5 : ℚ) ≠ 7 := by
  refine ⟨by with_unfolding_all rfl, rfl, by with_unfolding_all rfl, by norm_num⟩

/-- A model whose only auxiliary references an unknown variable, so its
evaluation always errors. -/
def modelBadAux : Model :=
  mkModel TimeConfig.dfl [] [] [("a", mkAux "a" (.Variable "missing"))] []

/-- C5: the error policy of fixed-point auxiliary resolution.  On a pass at
most 4 every evaluation error is swallowed (the pass itself cannot fail); from
pass 5 on an evaluation error aborts with a message naming the auxiliary and
the 1-based pass; a pass failure aborts the loop; with no remaining passes the
loop accepts the seed (so auxFixedPoint runs at most its 20 passes); the loop
stops early exactly when a pass reported no change beyond 1e-10, no error, and
at least one earlier pass had completed — in every other case, in particular
after a swallowed error, the loop proceeds to the next pass re-evaluating
every auxiliary. -/
theorem fixed_point_error_policy :
    (∀ F m time passState pass acc name aux, pass ≤ 4 →
      ∃ acc2, processAux F m time passState pass acc name aux = .ok acc2)
  ∧ (∀ F m time passState pass acc name aux e, 5 ≤ pass →
      evalExpr F m time aux.equation passState = .error e →
      processAux F m time passState pass acc name aux
        = .error ("Error evaluating auxiliary " ++ name ++ " (pass " ++ toString (pass + 1)
            ++ "): " ++ e))
  ∧ (∀ F m time state remaining pass seed e, auxPass F m time state pass seed = .error e →
      auxLoopGo F m time state (remaining + 1) pass seed = .error e)
  ∧ (∀ F m time state pass seed, auxLoopGo F m time state 0 pass seed = .ok seed)
  ∧ (∀ F m time state remaining pass seed acc, auxPass F m time state pass seed = .ok acc →
      ¬acc.changed ∧ ¬acc.anyErrors ∧ 0 < pass →
      auxLoopGo F m time state (remaining + 1) pass seed = .ok acc.seed)
  ∧ (∀ F m time state remaining pass seed acc, auxPass F m time state pass seed = .ok acc →
      ¬(¬acc.changed ∧ ¬acc.anyErrors ∧ 0 < pass) →
      auxLoopGo F m time state (remaining + 1) pass seed
        = auxLoopGo F m time state remaining (pass + 1) acc.seed)
  ∧ (∀ F m time state seed, auxFixedPoint F m time state seed
      = auxLoopGo F m time state 20 0 seed) := by
  refine ⟨?_, ?_, ?_, ?_, ?_, ?_, fun _ _ _ _ _ => rfl⟩
  · intro F m time passState pass acc name aux hpass
    unfold processAux
    cases h : evalExpr F m time aux.equation passState with
    | ok v => exact ⟨_, rfl⟩
    | error e =>
        have : ¬ 5 ≤ pass := by omega
        simp [this]
  · intro F m time passState pass acc name aux e hpass heval
    simp [processAux, heval, hpass]
  · intro F m time state remaining pass seed e h
    simp [auxLoopGo, h]
  · intro F m time state pass seed
    rfl
  · intro F m time state remaining pass seed acc h hcond
    simp [auxLoopGo, h, hcond]
  · intro F m time state remaining pass seed acc h hcond
    simp only [auxLoopGo, h]
    exact if_neg hcond

/-- Witness for C5 at concrete inputs: the erroring auxiliary of modelBadAux
is swallowed at pass 0, aborts with the formatted message at pass 5, and the
loop with no remaining passes returns its seed. -/
theorem fixed_point_error_policy_witness :
    (∃ acc2, processAux F0 modelBadAux 0 SimulationState.mkNew 0
        { seed := [], changed := false, anyErrors := false } "a"
        (mkAux "a" (.Variable "missing")) = .ok acc2)
  ∧ processAux F0 modelBadAux 0 SimulationState.mkNew 5
        { seed := [], changed := false, anyErrors := false } "a"
        (mkAux "a" (.Variable "missing"))
      = .error ("Error evaluating auxiliary " ++ "a" ++ " (pass " ++ toString (5 + 1)
          ++ "): " ++ ("Variable " ++ "missing" ++ " not found"))
  ∧ auxLoopGo F0 modelBadAux 0 SimulationState.mkNew 0 3 [("z", 1)] = .ok [("z", 1)] := by
  refine ⟨fixed_point_error_policy.1 F0 modelBadAux 0 SimulationState.mkNew 0 _ "a" _
      (by norm_num),
    fixed_point_error_policy.2.1 F0 modelBadAux 0 SimulationState.mkNew 5 _ "a" _ _
      (by norm_num) (by with_unfolding_all rfl),
    fixed_point_error_policy.2.2.2.1 F0 modelBadAux 0 SimulationState.mkNew 3 [("z", 1)]⟩

/-- Whenever an RK45 attempt succeeds, its accepted state carries time t + h. -/
theorem rk45Attempt_time (F : RealFuns) (m : Model) (p : RK45Params)
    (state : SimulationState) (t h err newH : ℚ) (acc : SimulationState)
    (hatt : rk45Attempt F m p state t h = .ok (err, newH, acc)) : acc.time = t + h := by
  unfold rk45Attempt at hatt
  split at hatt
  · exact Except.noConfusion hatt
  · injection hatt with h1
    injection h1 with ha h2
    injection h2 with hb hc
    subst hc
    rfl

/-- C6: the RK45 step-size control.  For a positive normalized error the
candidate next step is safety·h·(1/err)^0.2 clamped into [min_step, max_step];
an attempt with err ≤ 1 is accepted, advancing time by exactly h; with err > 1
the attempt is retried from the same starting state with the new step size,
failing immediately when that size fell below min_step; and exhausting the
attempt budget fails — rk45Step grants 10 attempts starting from
h = min(dt, max_step). -/
theorem rk45_adaptive_step_policy :
    (∀ F p y4 y5 h err newH, computeErrorAndStep F p y4 y5 h = (err, newH) → 0 < err →
      newH = min (max (p.safetyFactor * h * F.powf (1 / err) (1/5)) p.minStep) p.maxStep)
  ∧ (∀ F m p state t n h err newH acc,
      rk45Attempt F m p state t h = .ok (err, newH, acc) → err ≤ 1 →
      rk45Go F m p state t (n + 1) h = .ok acc ∧ acc.time = t + h)
  ∧ (∀ F m p state t n h err newH acc,
      rk45Attempt F m p state t h = .ok (err, newH, acc) → 1 < err → ¬ newH < p.minStep →
      rk45Go F m p state t (n + 1) h = rk45Go F m p state t n newH)
  ∧ (∀ F m p state t n h err newH acc,
      rk45Attempt F m p state t h = .ok (err, newH, acc) → 1 < err → newH < p.minStep →
      rk45Go F m p state t (n + 1) h = .error ("Step size (" ++ toString newH
        ++ ") below minimum (" ++ toString p.minStep ++ "). Error: " ++ toString err))
  ∧ (∀ F m p state t h, rk45Go F m p state t 0 h
      = .error "RK45 failed to converge after maximum attempts")
  ∧ (∀ F m p state dt, rk45Step F m p state dt
      = rk45Go F m p state state.time 10 (min dt p.maxStep)) := by
  refine ⟨?_, ?_, ?_, ?_, fun _ _ _ _ _ _ => rfl, fun _ _ _ _ _ => rfl⟩
  · intro F p y4 y5 h err newH hcomp herr
    unfold computeErrorAndStep at hcomp
    injection hcomp with h1 h2
    subst h1
    rw [if_pos herr] at h2
    exact h2.symm
  · intro F m p state t n h err newH acc hatt herr
    refine ⟨?_, rk45Attempt_time F m p state t h err newH acc hatt⟩
    simp [rk45Go, hatt, herr]
  · intro F m p state t n h err newH acc hatt herr hmin
    have : ¬ err ≤ 1 := not_le.mpr herr
    simp [rk45Go, hatt, this, hmin]
  · intro F m p state t n h err newH acc hatt herr hmin
    have : ¬ err ≤ 1 := not_le.mpr herr
    simp [rk45Go, hatt, this, hmin]

/-- Witness for C6 at concrete inputs: on the inert model the first attempt at
h = 1 has error 0 ≤ 1 and is accepted advancing time to 1, and an exhausted
attempt budget fails. -/
theorem rk45_adaptive_step_policy_witness :
    (rk45Go F0 modelInert RK45Params.dfl stInert0 0 10 1 = .ok stInert1
      ∧ stInert1.time = 0 + 1)
  ∧ rk45Go F0 modelInert RK45Params.dfl stInert0 0 0 1
      = .error "RK45 failed to converge after maximum attempts" := by
  refine ⟨rk45_adaptive_step_policy.2.1 F0 modelInert RK45Params.dfl stInert0 0 9 1 0 1
      stInert1 (by with_unfolding_all rfl) (by norm_num),
    rk45_adaptive_step_policy.2.2.2.2.1 F0 modelInert RK45Params.dfl stInert0 0 1⟩

/-- Inserting then looking up the same key gives the inserted value. -/
theorem aget_ainsert_self {α : Type} (l : List (String × α)) (k : String) (v : α) :
    aget (ainsert l k v) k = some v := by
  induction l with
  | nil => simp [ainsert, aget]
  | cons p rest ih =>
      by_cases h : p.1 = k
      · simp [ainsert, h, aget]
      · simp [ainsert, h, aget, ih]

/-- Inserting one key does not change lookups of another. -/
theorem aget_ainsert_ne {α : Type} (l : List (String × α)) (k k2 : String) (v : α)
    (h : k ≠ k2) : aget (ainsert l k v) k2 = aget l k2 := by
  induction l with
  | nil => simp [ainsert, aget, h]
  | cons p rest ih =>
      by_cases hp : p.1 = k
      · subst hp
        simp [ainsert, aget, h]
      · simp [ainsert, hp, aget, ih]

/-- A nil lookup result means no entry carries the key. -/
theorem aget_eq_none_iff {α : Type} (l : List (String × α)) (k : String) :
    aget l k = none ↔ ∀ p ∈ l, p.1 ≠ k := by
  induction l with
  | nil => simp [aget]
  | cons p rest ih =>
      by_cases h : p.1 = k
      · simp [aget, h]
      · simp [aget, h, ih]

/-- A successful lookup names a member entry. -/
theorem aget_mem {α : Type} (l : List (String × α)) (k : String) (v : α)
    (h : aget l k = some v) : (k, v) ∈ l := by
  induction l with
  | nil => simp [aget] at h
  | cons p rest ih =>
      obtain ⟨k2, v2⟩ := p
      by_cases hp : k2 = k
      · rw [aget, if_pos hp] at h
        injection h with hv
        subst hp
        subst hv
        exact List.mem_cons_self _ _
      · rw [aget, if_neg hp] at h
        exact List.mem_cons_of_mem _ (ih h)

/-- Folds whose steps insert val nv at key nv.1 (or skip when val is none)
leave a key alone when no processed entry carries it with an insertion. -/
theorem foldl_insert_preserve (val : String × ℚ → Option ℚ) :
    ∀ (olds : List (String × ℚ)) (base : List (String × ℚ)) (k : String),
      (∀ nv ∈ olds, nv.1 = k → val nv = none) →
      aget (olds.foldl (fun acc nv => match val nv with
        | some w => ainsert acc nv.1 w
        | none => acc) base) k = aget base k := by
  intro olds
  induction olds with
  | nil => intro base k _; rfl
  | cons nv0 rest ih =>
      intro base k hno
      rw [List.foldl_cons]
      rw [ih _ k (fun nv hm hk => hno nv (List.mem_cons_of_mem nv0 hm) hk)]
      cases hval : val nv0 with
      | none => rfl
      | some w =>
          by_cases hk : nv0.1 = k
          · exact absurd (hno nv0 (List.mem_cons_self nv0 rest) hk)
              (by simp [hval])
          · simp only [hval]
            exact aget_ainsert_ne base nv0.1 k w hk

/-- If some processed entry carries the key with an insertion, the fold result
at that key is the inserted value of one of the entries for the key. -/
theorem foldl_insert_get (val : String × ℚ → Option ℚ) :
    ∀ (olds : List (String × ℚ)) (base : List (String × ℚ)) (k : String),
      (∃ nv ∈ olds, nv.1 = k ∧ (val nv).isSome) →
      ∃ nv, nv ∈ olds ∧ nv.1 = k ∧
        aget (olds.foldl (fun acc nv => match val nv with
          | some w => ainsert acc nv.1 w
          | none => acc) base) k = val nv := by
  intro olds
  induction olds with
  | nil => rintro base k ⟨nv, hm, _⟩; simp at hm
  | cons nv0 rest ih =>
      rintro base k ⟨nv, hm, hk, hv⟩
      by_cases hrest : ∃ nv2 ∈ rest, nv2.1 = k ∧ (val nv2).isSome
      · obtain ⟨nv2, h2⟩ := ih (match val nv0 with
          | some w => ainsert base nv0.1 w
          | none => base) k hrest
        exact ⟨nv2, List.mem_cons_of_mem nv0 h2.1, h2.2.1, h2.2.2⟩
      · have hnv0 : nv0.1 = k ∧ (val nv0).isSome := by
          rcases List.mem_cons.mp hm with h | h
          · subst h; exact ⟨hk, hv⟩
          · exact absurd ⟨nv, h, hk, hv⟩ hrest
        obtain ⟨w, hw⟩ := Option.isSome_iff_exists.mp hnv0.2
        have hno : ∀ nv2 ∈ rest, nv2.1 = k → val nv2 = none := by
          intro nv2 hm2 hk2
          by_contra hin
          exact hrest ⟨nv2, hm2, hk2, Option.isSome_iff_ne_none.mpr hin⟩
        refine ⟨nv0, List.mem_cons_self nv0 rest, hnv0.1, ?_⟩
        simp only [List.foldl_cons]
        rw [foldl_insert_preserve val rest _ k hno, hw]
        simp only []
        rw [← hnv0.1]
        exact (aget_ainsert_self base nv0.1 w).trans hw.symm ▸ aget_ainsert_self base nv0.1 w

/-- The clamp always lands at or below a configured ceiling. -/
theorem clampStock_le_max (m : Model) (name : String) (stock : Stock) (M w : ℚ)
    (h : aget m.stocks name = some stock) (hM : stock.maxValue = some M) :
    clampStock m name w ≤ M := by
  unfold clampStock
  rw [h]
  dsimp only
  rw [hM]
  exact min_le_right _ _

/-- The clamp of a non-negative stock is at least 0 provided a configured
ceiling, if any, is itself non-negative. -/
theorem clampStock_nonneg (m : Model) (name : String) (stock : Stock) (w : ℚ)
    (h : aget m.stocks name = some stock) (hnn : stock.nonNegative = true)
    (hM : ∀ M, stock.maxValue = some M → 0 ≤ M) :
    0 ≤ clampStock m name w := by
  unfold clampStock
  rw [h]
  dsimp only
  rw [hnn]
  cases hmv : stock.maxValue with
  | none => simp [le_max_right]
  | some M => simp [le_min (le_max_right w 0) (hM M hmv)]

/-- Pointwise-equal step functions fold alike. -/
theorem foldl_congr_fn {α β : Type} (f g : α → β → α) :
    ∀ (l : List β) (a : α), (∀ a2 b, b ∈ l → f a2 b = g a2 b) → l.foldl f a = l.foldl g a := by
  intro l
  induction l with
  | nil => intro a _; rfl
  | cons b rest ih =>
      intro a hfg
      rw [List.foldl_cons, List.foldl_cons,
        hfg a b (List.mem_cons_self b rest),
        ih _ (fun a2 b2 hm => hfg a2 b2 (List.mem_cons_of_mem b hm))]

/-- Any value an insert-or-skip fold leaves at a key is either one of the
inserted values for the key, or the base value with no processed entry
carrying the key at all. -/
theorem foldl_value_cases (val : String × ℚ → Option ℚ) (olds base : List (String × ℚ))
    (k : String) (v : ℚ)
    (hget : aget (olds.foldl (fun acc nv => match val nv with
        | some w => ainsert acc nv.1 w
        | none => acc) base) k = some v)
    (hsome : ∀ nv ∈ olds, nv.1 = k → (val nv).isSome) :
    (∃ nv ∈ olds, nv.1 = k ∧ val nv = some v)
    ∨ (aget base k = some v ∧ ∀ p ∈ olds, p.1 ≠ k) := by
  by_cases hex : ∃ nv ∈ olds, nv.1 = k ∧ (val nv).isSome
  · obtain ⟨nv, hm, hk, hval⟩ := foldl_insert_get val olds base k hex
    rw [hget] at hval
    exact Or.inl ⟨nv, hm, hk, hval.symm⟩
  · have hne : ∀ p ∈ olds, p.1 ≠ k := by
      intro p hm hk
      exact hex ⟨p, hm, hk, hsome p hm hk⟩
    have hno : ∀ nv ∈ olds, nv.1 = k → val nv = none :=
      fun nv hm hk => absurd hk (hne nv hm)
    rw [foldl_insert_preserve val olds base k hno] at hget
    exact Or.inr ⟨hget, hne⟩

/-- A successful compute_derivatives covers every stock whose name the model
resolves, with the keys already present in the accumulator preserved. -/
theorem computeDerivativesGo_isSome (flows : List (String × ℚ)) :
    ∀ (todo : List (String × Stock)) (acc derivs : List (String × ℚ)) (name : String),
      computeDerivativesGo flows todo acc = .ok derivs →
      ((∃ st, (name, st) ∈ todo) ∨ (aget acc name).isSome) →
      (aget derivs name).isSome := by
  intro todo
  induction todo with
  | nil =>
      intro acc derivs name h hsrc
      injection h with h2
      rcases hsrc with ⟨st, hm⟩ | hs
      · simp at hm
      · rw [← h2]; exact hs
  | cons e rest ih =>
      intro acc derivs name h hsrc
      rw [computeDerivativesGo] at h
      obtain ⟨ename, estock⟩ := e
      cases hsd : stockDerivative flows ename estock with
      | error err => rw [hsd] at h; exact Except.noConfusion h
      | ok d =>
          rw [hsd] at h
          refine ih (ainsert acc ename d) derivs name h ?_
          rcases hsrc with ⟨st, hm⟩ | hs
          · rcases List.mem_cons.mp hm with he | hr
            · right
              have : ename = name := congrArg Prod.fst he.symm
              rw [this, aget_ainsert_self]
              rfl
            · exact Or.inl ⟨st, hr⟩
          · right
            by_cases hk : ename = name
            · rw [hk, aget_ainsert_self]; rfl
            · rw [aget_ainsert_ne acc ename name d hk]; exact hs

/-- compute_derivatives produces an entry for every model stock. -/
theorem computeDerivatives_covers (m : Model) (flows derivs : List (String × ℚ))
    (name : String) (stock : Stock)
    (h : computeDerivatives m flows = .ok derivs)
    (hstock : aget m.stocks name = some stock) : (aget derivs name).isSome :=
  computeDerivativesGo_isSome flows m.stocks [] derivs name h
    (Or.inl ⟨stock, aget_mem m.stocks name stock hstock⟩)

/-- The Euler stock update is the canonical insert-or-skip fold over the old
stock entries, inserting clamped updates where a derivative exists. -/
theorem eulerUpdateStocks_eq_fold (m : Model) (dt : ℚ) (derivs olds cur : List (String × ℚ)) :
    eulerUpdateStocks m dt derivs olds cur
      = olds.foldl (fun acc nv =>
          match (aget derivs nv.1).map (fun d => clampStock m nv.1 (nv.2 + d * dt)) with
          | some w => ainsert acc nv.1 w
          | none => acc) cur := by
  unfold eulerUpdateStocks
  refine foldl_congr_fn _ _ olds cur ?_
  intro acc nv _
  cases h : aget derivs nv.1 <;> simp [h]

/-- Every value the Euler stock update stores for a key with a derivative and
with the fold base equal to the iterated entries is a clamped value. -/
theorem eulerUpdateStocks_clamped (m : Model) (dt : ℚ) (derivs olds : List (String × ℚ))
    (name : String) (v : ℚ)
    (hd : (aget derivs name).isSome)
    (hget : aget (eulerUpdateStocks m dt derivs olds olds) name = some v) :
    ∃ w, v = clampStock m name w := by
  rw [eulerUpdateStocks_eq_fold] at hget
  obtain ⟨d0, hd0⟩ := Option.isSome_iff_exists.mp hd
  have hsome : ∀ nv ∈ olds, nv.1 = name →
      ((aget derivs nv.1).map (fun d => clampStock m nv.1 (nv.2 + d * dt))).isSome := by
    intro nv _ hk
    rw [hk, hd0]
    rfl
  rcases foldl_value_cases _ olds olds name v hget hsome with ⟨nv, hm, hk, hval⟩ | ⟨hbase, hne⟩
  · rw [hk] at hval
    obtain ⟨d, _, hdv⟩ := Option.map_eq_some'.mp hval
    exact ⟨nv.2 + d * dt, hdv.symm⟩
  · exact absurd rfl (hne (name, v) (aget_mem olds name v hbase))

/-- The auxiliary pass of the Euler step never changes the stock map. -/
theorem eulerAuxProcess_stocks (F : RealFuns) (m : Model) (oldTime : ℚ) (pass : ℕ) :
    ∀ (auxes : List (String × Auxiliary)) (ns : SimulationState) (na : List (String × ℚ))
      (ch er : Bool) (ns2 : SimulationState) (na2 : List (String × ℚ)) (ch2 er2 : Bool),
      eulerAuxProcess F m oldTime pass auxes ns na ch er = .ok (ns2, na2, ch2, er2) →
      ns2.stocks = ns.stocks := by
  intro auxes
  induction auxes with
  | nil =>
      intro ns na ch er ns2 na2 ch2 er2 h
      injection h with h2
      injection h2 with ha _
      rw [← ha]
  | cons e rest ih =>
      intro ns na ch er ns2 na2 ch2 er2 h
      rw [eulerAuxProcess] at h
      obtain ⟨ename, eaux⟩ := e
      cases hev : evalExpr F m oldTime eaux.equation ns with
      | ok vst =>
          obtain ⟨v, temp2⟩ := vst
          rw [hev] at h
          exact (ih _ _ _ _ _ _ _ _ h).trans rfl
      | error err =>
          rw [hev] at h
          dsimp only at h
          by_cases hp : 5 ≤ pass
          · rw [if_pos hp] at h
            exact Except.noConfusion h
          · rw [if_neg hp] at h
            exact ih _ _ _ _ _ _ _ _ h

/-- The Euler auxiliary pass driver never changes the stock map. -/
theorem eulerAuxLoopGo_stocks (F : RealFuns) (m : Model) (oldTime : ℚ) :
    ∀ (remaining pass : ℕ) (ns : SimulationState) (na : List (String × ℚ))
      (ns2 : SimulationState) (na2 : List (String × ℚ)),
      eulerAuxLoopGo F m oldTime remaining pass ns na = .ok (ns2, na2) →
      ns2.stocks = ns.stocks := by
  intro remaining
  induction remaining with
  | zero =>
      intro pass ns na ns2 na2 h
      injection h with h2
      injection h2 with ha _
      rw [← ha]
  | succ r ih =>
      intro pass ns na ns2 na2 h
      rw [eulerAuxLoopGo] at h
      cases hpr : eulerAuxProcess F m oldTime pass m.auxiliaries ns na false false with
      | error err => rw [hpr] at h; exact Except.noConfusion h
      | ok q =>
          obtain ⟨nsp, nap, chp, erp⟩ := q
          have hst := eulerAuxProcess_stocks F m oldTime pass m.auxiliaries ns na false false
            nsp nap chp erp hpr
          rw [hpr] at h
          dsimp only at h
          by_cases hc : ¬chp = true ∧ ¬erp = true ∧ 0 < pass
          · rw [if_pos hc] at h
            injection h with h2
            injection h2 with ha _
            rw [← ha]
            exact hst
          · rw [if_neg hc] at h
            rw [ih _ _ _ _ _ h]
            exact hst

/-- The flow pass of the Euler step never changes the stock map. -/
theorem eulerFlowsGo_stocks (F : RealFuns) (m : Model) (oldTime : ℚ) :
    ∀ (fls : List (String × Flow)) (ns : SimulationState) (nf : List (String × ℚ))
      (ns2 : SimulationState) (nf2 : List (String × ℚ)),
      eulerFlowsGo F m oldTime fls ns nf = .ok (ns2, nf2) → ns2.stocks = ns.stocks := by
  intro fls
  induction fls with
  | nil =>
      intro ns nf ns2 nf2 h
      injection h with h2
      injection h2 with ha _
      rw [← ha]
  | cons e rest ih =>
      intro ns nf ns2 nf2 h
      rw [eulerFlowsGo] at h
      obtain ⟨ename, eflow⟩ := e
      cases hev : evalExpr F m oldTime eflow.equation ns with
      | ok vst =>
          obtain ⟨v, temp2⟩ := vst
          rw [hev] at h
          exact (ih _ _ _ _ h).trans rfl
      | error err => rw [hev] at h; exact Except.noConfusion h

/-- A successful Euler step stores exactly the clamped update fold over the
old stock entries, for derivatives compute_derivatives produced from the new
flows. -/
theorem eulerStep_stocks_shape (F : RealFuns) (m : Model) (state : SimulationState) (dt : ℚ)
    (s2 : SimulationState) (h : eulerStep F m state dt = .ok s2) :
    ∃ derivs flows, computeDerivatives m flows = .ok derivs
      ∧ s2.stocks = eulerUpdateStocks m dt derivs state.stocks state.stocks := by
  unfold eulerStep at h
  dsimp only at h
  cases hal : eulerAuxLoopGo F m state.time 20 0 { state with time := state.time + dt } [] with
  | error err => rw [hal] at h; exact Except.noConfusion h
  | ok p1 =>
      obtain ⟨ns1, na1⟩ := p1
      have hst1 : ns1.stocks = state.stocks := by
        have := eulerAuxLoopGo_stocks F m state.time 20 0
          { state with time := state.time + dt } [] ns1 na1 hal
        simpa using this
      rw [hal] at h
      dsimp only at h
      cases hfl : eulerFlowsGo F m state.time m.flows ns1 [] with
      | error err => rw [hfl] at h; exact Except.noConfusion h
      | ok p2 =>
          obtain ⟨ns2x, nf⟩ := p2
          have hst2 : ns2x.stocks = ns1.stocks :=
            eulerFlowsGo_stocks F m state.time m.flows ns1 [] ns2x nf hfl
          rw [hfl] at h
          dsimp only at h
          cases hcd : computeDerivatives m nf with
          | error err => rw [hcd] at h; exact Except.noConfusion h
          | ok derivs =>
              rw [hcd] at h
              dsimp only at h
              injection h with h2
              refine ⟨derivs, nf, hcd, ?_⟩
              rw [← h2]
              dsimp only
              rw [hst2, hst1]

/-- The RK4 stock update is an always-insert clamped fold. -/
theorem rk4UpdateStocks_eq_fold (m : Model) (dt : ℚ) (k1 k2 k3 k4 olds cur :
    List (String × ℚ)) :
    rk4UpdateStocks m dt k1 k2 k3 k4 olds cur
      = olds.foldl (fun acc nv =>
          match some (clampStock m nv.1 (nv.2 + ((aget k1 nv.1).getD 0
              + 2 * (aget k2 nv.1).getD 0 + 2 * (aget k3 nv.1).getD 0
              + (aget k4 nv.1).getD 0) * dt / 6)) with
          | some w => ainsert acc nv.1 w
          | none => acc) cur := by
  unfold rk4UpdateStocks
  exact foldl_congr_fn _ _ olds cur (fun acc nv _ => rfl)

/-- Values stored by the RK4 stock update over its own entries are clamped. -/
theorem rk4UpdateStocks_clamped (m : Model) (dt : ℚ) (k1 k2 k3 k4 olds : List (String × ℚ))
    (name : String) (v : ℚ)
    (hget : aget (rk4UpdateStocks m dt k1 k2 k3 k4 olds olds) name = some v) :
    ∃ w, v = clampStock m name w := by
  rw [rk4UpdateStocks_eq_fold] at hget
  rcases foldl_value_cases (fun nv => some (clampStock m nv.1 (nv.2 + ((aget k1 nv.1).getD 0
      + 2 * (aget k2 nv.1).getD 0 + 2 * (aget k3 nv.1).getD 0
      + (aget k4 nv.1).getD 0) * dt / 6))) olds olds name v hget (fun nv _ _ => rfl) with
    ⟨nv, hm, hk, hval⟩ | ⟨hbase, hne⟩
  · injection hval with hv
    exact ⟨_, by rw [← hv, hk]⟩
  · exact absurd rfl (hne (name, v) (aget_mem olds name v hbase))

/-- The Heun stock update is an always-insert clamped fold. -/
theorem heunUpdateStocks_eq_fold (m : Model) (dt : ℚ) (k1 k2 olds cur : List (String × ℚ)) :
    heunUpdateStocks m dt k1 k2 olds cur
      = olds.foldl (fun acc nv =>
          match some (clampStock m nv.1 (nv.2 + ((aget k1 nv.1).getD 0
              + (aget k2 nv.1).getD 0) * dt / 2)) with
          | some w => ainsert acc nv.1 w
          | none => acc) cur := by
  unfold heunUpdateStocks
  exact foldl_congr_fn _ _ olds cur (fun acc nv _ => rfl)

/-- Values stored by the Heun stock update over its own entries are clamped. -/
theorem heunUpdateStocks_clamped (m : Model) (dt : ℚ) (k1 k2 olds : List (String × ℚ))
    (name : String) (v : ℚ)
    (hget : aget (heunUpdateStocks m dt k1 k2 olds olds) name = some v) :
    ∃ w, v = clampStock m name w := by
  rw [heunUpdateStocks_eq_fold] at hget
  rcases foldl_value_cases (fun nv => some (clampStock m nv.1 (nv.2 + ((aget k1 nv.1).getD 0
      + (aget k2 nv.1).getD 0) * dt / 2))) olds olds name v hget (fun nv _ _ => rfl) with
    ⟨nv, hm, hk, hval⟩ | ⟨hbase, hne⟩
  · injection hval with hv
    exact ⟨_, by rw [← hv, hk]⟩
  · exact absurd rfl (hne (name, v) (aget_mem olds name v hbase))

/-- A successful RK4 step stores the weighted clamped update over the old
stock entries. -/
theorem rk4Step_stocks_shape (F : RealFuns) (m : Model) (state : SimulationState) (dt : ℚ)
    (s2 : SimulationState) (h : rk4Step F m state dt = .ok s2) :
    ∃ k1 k2 k3 k4, s2.stocks = rk4UpdateStocks m dt k1 k2 k3 k4 state.stocks state.stocks := by
  unfold rk4Step at h
  dsimp only at h
  repeat' split at h
  all_goals first
    | exact Except.noConfusion h
    | (injection h with h2; exact ⟨_, _, _, _, by rw [← h2]⟩)

/-- A successful Heun step stores the corrector clamped update over the old
stock entries. -/
theorem heunStep_stocks_shape (F : RealFuns) (m : Model) (state : SimulationState) (dt : ℚ)
    (s2 : SimulationState) (h : heunStep F m state dt = .ok s2) :
    ∃ k1 k2, s2.stocks = heunUpdateStocks m dt k1 k2 state.stocks state.stocks := by
  unfold heunStep at h
  dsimp only at h
  repeat' split at h
  all_goals first
    | exact Except.noConfusion h
    | (injection h with h2; exact ⟨_, _, by rw [← h2]⟩)

/-- The accepted state of a successful RK45 attempt stores the clamped fold of
the 5th-order solution entries (a map over the old stock entries) into the old
stock map. -/
theorem rk45Attempt_stocks (F : RealFuns) (m : Model) (p : RK45Params)
    (state : SimulationState) (t h err newH : ℚ) (acc : SimulationState)
    (hatt : rk45Attempt F m p state t h = .ok (err, newH, acc)) :
    ∃ g : String × ℚ → ℚ, acc.stocks
      = (state.stocks.map (fun nv => (nv.1, g nv))).foldl
          (fun a nv => ainsert a nv.1 (clampStock m nv.1 nv.2)) state.stocks := by
  unfold rk45Attempt at hatt
  split at hatt
  · exact Except.noConfusion hatt
  · injection hatt with h1
    injection h1 with ha h2
    injection h2 with hb hc
    subst hc
    exact ⟨_, rfl⟩

/-- Values stored in the accepted stocks of an RK45 attempt are clamped. -/
theorem rk45Accept_clamped (m : Model) (state : SimulationState) (g : String × ℚ → ℚ)
    (name : String) (v : ℚ)
    (hget : aget ((state.stocks.map (fun nv => (nv.1, g nv))).foldl
        (fun a nv => ainsert a nv.1 (clampStock m nv.1 nv.2)) state.stocks) name = some v) :
    ∃ w, v = clampStock m name w := by
  have hfold : (state.stocks.map (fun nv => (nv.1, g nv))).foldl
      (fun a nv => ainsert a nv.1 (clampStock m nv.1 nv.2)) state.stocks
    = (state.stocks.map (fun nv => (nv.1, g nv))).foldl
        (fun a nv => match some (clampStock m nv.1 nv.2) with
          | some w => ainsert a nv.1 w
          | none => a) state.stocks :=
    foldl_congr_fn _ _ _ _ (fun a nv _ => rfl)
  rw [hfold] at hget
  rcases foldl_value_cases (fun nv => some (clampStock m nv.1 nv.2))
    (state.stocks.map (fun nv => (nv.1, g nv))) state.stocks name v hget
    (fun nv _ _ => rfl) with
    ⟨nv, hm, hk, hval⟩ | ⟨hbase, hne⟩
  · injection hval with hv
    exact ⟨_, by rw [← hv, hk]⟩
  · have hmemb := aget_mem state.stocks name v hbase
    have : ((name, v).1, g (name, v)) ∈ state.stocks.map (fun nv => (nv.1, g nv)) :=
      List.mem_map_of_mem _ hmemb
    exact absurd rfl (hne _ this)

/-- A successful RK45 attempt loop returns the accepted state of one of its
attempts. -/
theorem rk45Go_accepted (F : RealFuns) (m : Model) (p : RK45Params)
    (state : SimulationState) (t : ℚ) :
    ∀ (fuel : ℕ) (h : ℚ) (s2 : SimulationState),
      rk45Go F m p state t fuel h = .ok s2 →
      ∃ h2 err newH, rk45Attempt F m p state t h2 = .ok (err, newH, s2) := by
  intro fuel
  induction fuel with
  | zero => intro h s2 hgo; exact Except.noConfusion hgo
  | succ n ih =>
      intro h s2 hgo
      rw [rk45Go] at hgo
      cases hatt : rk45Attempt F m p state t h with
      | error e => rw [hatt] at hgo; exact Except.noConfusion hgo
      | ok q =>
          obtain ⟨err, newH, acc⟩ := q
          rw [hatt] at hgo
          dsimp only at hgo
          by_cases herr : err ≤ 1
          · rw [if_pos herr] at hgo
            injection hgo with h2
            exact ⟨h, err, newH, by rw [hatt, h2]⟩
          · rw [if_neg herr] at hgo
            by_cases hmin : newH < p.minStep
            · rw [if_pos hmin] at hgo; exact Except.noConfusion hgo
            · rw [if_neg hmin] at hgo
              exact ih newH s2 hgo

/-- The first component of the Backward Euler pair fold is the Euler clamped
update fold (the max-change tracking reads the fixed current stocks and does
not affect the stored values). -/
theorem beUpdateStocks_fst (m : Model) (dt : ℚ) (derivs : List (String × ℚ))
    (olds cur : List (String × ℚ)) :
    (beUpdateStocks m dt derivs olds cur).1 = eulerUpdateStocks m dt derivs olds cur := by
  have hgen : ∀ (l : List (String × ℚ)) (acc : List (String × ℚ) × ℚ),
      (l.foldl (fun acc nv =>
        match aget derivs nv.1 with
        | some d =>
            let clamped := clampStock m nv.1 (nv.2 + d * dt)
            let mc := match aget cur nv.1 with
              | some cv => max acc.2 |clamped - cv|
              | none => acc.2
            (ainsert acc.1 nv.1 clamped, mc)
        | none => acc) acc).1
      = l.foldl (fun acc nv =>
          match aget derivs nv.1 with
          | some d => ainsert acc nv.1 (clampStock m nv.1 (nv.2 + d * dt))
          | none => acc) acc.1 := by
    intro l
    induction l with
    | nil => intro acc; rfl
    | cons nv rest ih =>
        intro acc
        rw [List.foldl_cons, List.foldl_cons, ih]
        cases hd : aget derivs nv.1 <;> simp [hd]
  unfold beUpdateStocks eulerUpdateStocks
  exact hgen olds (cur, 0)

/-- The Backward Euler iteration with remaining budget returns a state whose
stocks are a clamped update fold from a successful derivative computation. -/
theorem beLoopGo_shape (F : RealFuns) (m : Model) (p : BackwardEulerParams)
    (olds : List (String × ℚ)) (dt tNext : ℚ) :
    ∀ (remaining iteration : ℕ) (current s2 : SimulationState), 0 < remaining →
      beLoopGo F m p olds dt tNext remaining iteration current = .ok s2 →
      ∃ flows derivs cst, computeDerivatives m flows = .ok derivs
        ∧ s2.stocks = eulerUpdateStocks m dt derivs olds cst := by
  intro remaining
  induction remaining with
  | zero => intro iteration current s2 hr; exact absurd hr (by norm_num)
  | succ r ih =>
      intro iteration current s2 _ h
      rw [beLoopGo] at h
      cases hev : evaluateSystem F m current tNext with
      | error e => rw [hev] at h; exact Except.noConfusion h
      | ok q =>
          obtain ⟨auxs, flows⟩ := q
          rw [hev] at h
          dsimp only at h
          cases hcd : computeDerivatives m flows with
          | error e => rw [hcd] at h; exact Except.noConfusion h
          | ok derivs =>
              rw [hcd] at h
              dsimp only at h
              by_cases hc : (beUpdateStocks m dt derivs olds current.stocks).2 < p.tolerance
                ∧ 0 < iteration
              · rw [if_pos hc] at h
                injection h with h2
                exact ⟨flows, derivs, current.stocks, hcd,
                  by rw [← h2]; exact beUpdateStocks_fst m dt derivs olds current.stocks ▸ rfl⟩
              · rw [if_neg hc] at h
                cases hr0 : r with
                | zero =>
                    rw [hr0] at h
                    rw [beLoopGo] at h
                    injection h with h2
                    exact ⟨flows, derivs, current.stocks, hcd,
                      by rw [← h2]; exact beUpdateStocks_fst m dt derivs olds current.stocks ▸ rfl⟩
                | succ r2 =>
                    exact ih (iteration + 1) _ s2 (by rw [hr0]; omega) h

/-- When no old stock entry carries a key, the Backward Euler iteration leaves
that key's value untouched. -/
theorem beLoopGo_no_entry (F : RealFuns) (m : Model) (p : BackwardEulerParams)
    (olds : List (String × ℚ)) (dt tNext : ℚ) (name : String)
    (hne : ∀ q ∈ olds, q.1 ≠ name) :
    ∀ (remaining iteration : ℕ) (current s2 : SimulationState),
      beLoopGo F m p olds dt tNext remaining iteration current = .ok s2 →
      aget s2.stocks name = aget current.stocks name := by
  have hpres : ∀ (derivs cst : List (String × ℚ)),
      aget (eulerUpdateStocks m dt derivs olds cst) name = aget cst name := by
    intro derivs cst
    rw [eulerUpdateStocks_eq_fold]
    exact foldl_insert_preserve _ olds cst name
      (fun nv hm hk => absurd hk (hne nv hm))
  intro remaining
  induction remaining with
  | zero =>
      intro iteration current s2 h
      injection h with h2
      rw [← h2]
  | succ r ih =>
      intro iteration current s2 h
      rw [beLoopGo] at h
      cases hev : evaluateSystem F m current tNext with
      | error e => rw [hev] at h; exact Except.noConfusion h
      | ok q =>
          obtain ⟨auxs, flows⟩ := q
          rw [hev] at h
          dsimp only at h
          cases hcd : computeDerivatives m flows with
          | error e => rw [hcd] at h; exact Except.noConfusion h
          | ok derivs =>
              rw [hcd] at h
              dsimp only at h
              by_cases hc : (beUpdateStocks m dt derivs olds current.stocks).2 < p.tolerance
                ∧ 0 < iteration
              · rw [if_pos hc] at h
                injection h with h2
                rw [← h2]
                dsimp only
                rw [beUpdateStocks_fst]
                exact hpres derivs current.stocks
              · rw [if_neg hc] at h
                rw [ih _ _ _ h]
                dsimp only
                rw [beUpdateStocks_fst]
                exact hpres derivs current.stocks

/-- Values stored by the Euler clamped update over an arbitrary base are
clamped, or carried from the base at a key no processed entry has. -/
theorem eulerUpdateStocks_value_cases (m : Model) (dt : ℚ) (derivs olds cst :
    List (String × ℚ)) (name : String) (v : ℚ)
    (hd : (aget derivs name).isSome)
    (hget : aget (eulerUpdateStocks m dt derivs olds cst) name = some v) :
    (∃ w, v = clampStock m name w)
    ∨ (aget cst name = some v ∧ ∀ q ∈ olds, q.1 ≠ name) := by
  rw [eulerUpdateStocks_eq_fold] at hget
  obtain ⟨d0, hd0⟩ := Option.isSome_iff_exists.mp hd
  have hsome : ∀ nv ∈ olds, nv.1 = name →
      ((aget derivs nv.1).map (fun d => clampStock m nv.1 (nv.2 + d * dt))).isSome := by
    intro nv _ hk
    rw [hk, hd0]
    rfl
  rcases foldl_value_cases (fun nv => (aget derivs nv.1).map
      (fun d => clampStock m nv.1 (nv.2 + d * dt))) olds cst name v hget hsome with
    ⟨nv, hm, hk, hval⟩ | ⟨hbase, hne⟩
  · rw [hk] at hval
    obtain ⟨d, _, hdv⟩ := Option.map_eq_some'.mp hval
    exact Or.inl ⟨nv.2 + d * dt, hdv.symm⟩
  · exact Or.inr ⟨hbase, hne⟩

/-- Values stored in the stocks of a successful Backward Euler step (with a
positive iteration budget) at the name of a model stock are clamped. -/
theorem beStep_clamped (F : RealFuns) (m : Model) (p : BackwardEulerParams)
    (state : SimulationState) (dt : ℚ) (s2 : SimulationState) (name : String) (stock : Stock)
    (v : ℚ) (hp : 0 < p.maxIterations)
    (h : beStep F m p state dt = .ok s2)
    (hstock : aget m.stocks name = some stock)
    (hget : aget s2.stocks name = some v) : ∃ w, v = clampStock m name w := by
  unfold beStep at h
  dsimp only at h
  cases hev : evaluateSystem F m state state.time with
  | error e => rw [hev] at h; exact Except.noConfusion h
  | ok q =>
      obtain ⟨aux0, flows0⟩ := q
      rw [hev] at h
      dsimp only at h
      cases hcd0 : computeDerivatives m flows0 with
      | error e => rw [hcd0] at h; exact Except.noConfusion h
      | ok deriv0 =>
          rw [hcd0] at h
          dsimp only at h
          obtain ⟨flows, derivs, cst, hcd, hstocks⟩ :=
            beLoopGo_shape F m p state.stocks dt (state.time + dt) p.maxIterations 0 _ s2 hp h
          rw [hstocks] at hget
          have hd := computeDerivatives_covers m flows derivs name stock hcd hstock
          rcases eulerUpdateStocks_value_cases m dt derivs state.stocks cst name v hd hget with
            hcl | ⟨_, hne⟩
          · exact hcl
          · exfalso
            have hchain := beLoopGo_no_entry F m p state.stocks dt (state.time + dt) name hne
              p.maxIterations 0 _ s2 h
            rw [hstocks] at hchain
            have hguess : aget (state.stocks.foldl (fun acc nv =>
                match aget deriv0 nv.1 with
                | some d => ainsert acc nv.1 (nv.2 + d * dt)
                | none => acc) state.stocks) name = aget state.stocks name := by
              have hcongr : state.stocks.foldl (fun acc nv =>
                  match aget deriv0 nv.1 with
                  | some d => ainsert acc nv.1 (nv.2 + d * dt)
                  | none => acc) state.stocks
                = state.stocks.foldl (fun acc nv =>
                    match (aget deriv0 nv.1).map (fun d => nv.2 + d * dt) with
                    | some w => ainsert acc nv.1 w
                    | none => acc) state.stocks := by
                refine foldl_congr_fn _ _ state.stocks state.stocks ?_
                intro acc nv _
                cases hdd : aget deriv0 nv.1 <;> simp [hdd]
              rw [hcongr]
              exact foldl_insert_preserve _ state.stocks state.stocks name
                (fun nv hm hk => absurd hk (hne nv hm))
            have hnone : aget state.stocks name = none :=
              (aget_eq_none_iff state.stocks name).mpr hne
            rw [hget] at hchain
            dsimp only at hchain
            rw [hguess, hnone] at hchain
            exact Option.noConfusion hchain

/-- Values stored in the stocks of a successful RK45 step are clamped. -/
theorem rk45Step_clamped (F : RealFuns) (m : Model) (p : RK45Params)
    (state : SimulationState) (dt : ℚ) (s2 : SimulationState) (name : String) (v : ℚ)
    (h : rk45Step F m p state dt = .ok s2)
    (hget : aget s2.stocks name = some v) : ∃ w, v = clampStock m name w := by
  obtain ⟨h2, err, newH, hatt⟩ := rk45Go_accepted F m p state state.time 10 (min dt p.maxStep)
    s2 h
  obtain ⟨g, hstocks⟩ := rk45Attempt_stocks F m p state state.time h2 err newH s2 hatt
  rw [hstocks] at hget
  exact rk45Accept_clamped m state g name v hget

/-- Every stock value stored by a successful step of any of the five engine
integrators at the name of a model stock is a clamped value. -/
theorem integratorStep_clamped (F : RealFuns) (method : IntegrationMethod) (m : Model)
    (state : SimulationState) (dt : ℚ) (s2 : SimulationState) (name : String) (stock : Stock)
    (v : ℚ)
    (h : integratorStep F method m state dt = .ok s2)
    (hstock : aget m.stocks name = some stock)
    (hget : aget s2.stocks name = some v) : ∃ w, v = clampStock m name w := by
  cases method with
  | Euler =>
      obtain ⟨derivs, flows, hcd, hsh⟩ := eulerStep_stocks_shape F m state dt s2 h
      rw [hsh] at hget
      exact eulerUpdateStocks_clamped m dt derivs state.stocks name v
        (computeDerivatives_covers m flows derivs name stock hcd hstock) hget
  | RK4 =>
      obtain ⟨k1, k2, k3, k4, hsh⟩ := rk4Step_stocks_shape F m state dt s2 h
      rw [hsh] at hget
      exact rk4UpdateStocks_clamped m dt k1 k2 k3 k4 state.stocks name v hget
  | RK45 => exact rk45Step_clamped F m RK45Params.dfl state dt s2 name v h hget
  | Heun =>
      obtain ⟨k1, k2, hsh⟩ := heunStep_stocks_shape F m state dt s2 h
      rw [hsh] at hget
      exact heunUpdateStocks_clamped m dt k1 k2 state.stocks name v hget
  | BackwardEuler =>
      exact beStep_clamped F m BackwardEulerParams.dfl state dt s2 name stock v
        (by norm_num [BackwardEulerParams.dfl]) h hstock hget

/-- Every state the run loop records is either one it started with or arose
from a successful integrator step, possibly with its time clamped at stop. -/
theorem runLoop_states_source (F : RealFuns) (m : Model) (cfg : SimulationConfig) :
    ∀ (fuel : ℕ) (state : SimulationState) (results : SimulationResults)
      (res : SimulationResults) (fin : SimulationState),
      runLoop F m cfg fuel state results = .ok (res, fin) →
      ∀ s ∈ res.states, s ∈ results.states ∨
        ∃ s0 s1, integratorStep F cfg.integrationMethod m s0 m.time.dt = .ok s1 ∧
          (s = s1 ∨ s = { s1 with time := m.time.stop }) := by
  intro fuel
  induction fuel with
  | zero =>
      intro state results res fin h s hs
      rw [runLoop] at h
      by_cases hg : state.time < m.time.stop
      · rw [if_pos hg] at h; exact Except.noConfusion h
      · rw [if_neg hg] at h
        injection h with h2
        injection h2 with ha _
        left
        rw [← ha] at hs
        exact hs
  | succ fuel ih =>
      intro state results res fin h s hs
      rw [runLoop] at h
      by_cases hg : state.time < m.time.stop
      · rw [if_pos hg] at h
        cases hstep : integratorStep F cfg.integrationMethod m state m.time.dt with
        | error e => rw [hstep] at h; exact Except.noConfusion h
        | ok s1 =>
            rw [hstep] at h
            dsimp only at h
            rcases ih _ _ res fin h s hs with hmem | hnew
            · by_cases hrec : (match cfg.outputInterval with
                | some interval =>
                    decide (⌊(if s1.time > m.time.stop then { s1 with time := m.time.stop }
                      else s1).time / interval⌋
                      > ⌊((if s1.time > m.time.stop then { s1 with time := m.time.stop }
                        else s1).time - m.time.dt) / interval⌋)
                | none => true) = true
              · rw [if_pos hrec] at hmem
                rcases List.mem_append.mp hmem with hold | hlast
                · exact Or.inl hold
                · right
                  refine ⟨state, s1, hstep, ?_⟩
                  rw [List.mem_singleton.mp hlast]
                  by_cases hcl : s1.time > m.time.stop
                  · rw [if_pos hcl]; right; rfl
                  · rw [if_neg hcl]; left; rfl
              · rw [if_neg hrec] at hmem
                exact Or.inl hmem
            · exact Or.inr hnew
      · rw [if_neg hg] at h
        injection h with h2
        injection h2 with ha _
        left
        rw [← ha] at hs
        exact hs

/-- The auxiliary pass of the Euler step never changes the time. -/
theorem eulerAuxProcess_time (F : RealFuns) (m : Model) (oldTime : ℚ) (pass : ℕ) :
    ∀ (auxes : List (String × Auxiliary)) (ns : SimulationState) (na : List (String × ℚ))
      (ch er : Bool) (ns2 : SimulationState) (na2 : List (String × ℚ)) (ch2 er2 : Bool),
      eulerAuxProcess F m oldTime pass auxes ns na ch er = .ok (ns2, na2, ch2, er2) →
      ns2.time = ns.time := by
  intro auxes
  induction auxes with
  | nil =>
      intro ns na ch er ns2 na2 ch2 er2 h
      injection h with h2
      injection h2 with ha _
      rw [← ha]
  | cons e rest ih =>
      intro ns na ch er ns2 na2 ch2 er2 h
      rw [eulerAuxProcess] at h
      obtain ⟨ename, eaux⟩ := e
      cases hev : evalExpr F m oldTime eaux.equation ns with
      | ok vst =>
          obtain ⟨v, temp2⟩ := vst
          rw [hev] at h
          exact (ih _ _ _ _ _ _ _ _ h).trans rfl
      | error err =>
          rw [hev] at h
          dsimp only at h
          by_cases hp : 5 ≤ pass
          · rw [if_pos hp] at h
            exact Except.noConfusion h
          · rw [if_neg hp] at h
            exact ih _ _ _ _ _ _ _ _ h

/-- The Euler auxiliary pass driver never changes the time. -/
theorem eulerAuxLoopGo_time (F : RealFuns) (m : Model) (oldTime : ℚ) :
    ∀ (remaining pass : ℕ) (ns : SimulationState) (na : List (String × ℚ))
      (ns2 : SimulationState) (na2 : List (String × ℚ)),
      eulerAuxLoopGo F m oldTime remaining pass ns na = .ok (ns2, na2) →
      ns2.time = ns.time := by
  intro remaining
  induction remaining with
  | zero =>
      intro pass ns na ns2 na2 h
      injection h with h2
      injection h2 with ha _
      rw [← ha]
  | succ r ih =>
      intro pass ns na ns2 na2 h
      rw [eulerAuxLoopGo] at h
      cases hpr : eulerAuxProcess F m oldTime pass m.auxiliaries ns na false false with
      | error err => rw [hpr] at h; exact Except.noConfusion h
      | ok q =>
          obtain ⟨nsp, nap, chp, erp⟩ := q
          have hst := eulerAuxProcess_time F m oldTime pass m.auxiliaries ns na false false
            nsp nap chp erp hpr
          rw [hpr] at h
          dsimp only at h
          by_cases hc : ¬chp = true ∧ ¬erp = true ∧ 0 < pass
          · rw [if_pos hc] at h
            injection h with h2
            injection h2 with ha _
            rw [← ha]
            exact hst
          · rw [if_neg hc] at h
            rw [ih _ _ _ _ _ h]
            exact hst

/-- The flow pass of the Euler step never changes the time. -/
theorem eulerFlowsGo_time (F : RealFuns) (m : Model) (oldTime : ℚ) :
    ∀ (fls : List (String × Flow)) (ns : SimulationState) (nf : List (String × ℚ))
      (ns2 : SimulationState) (nf2 : List (String × ℚ)),
      eulerFlowsGo F m oldTime fls ns nf = .ok (ns2, nf2) → ns2.time = ns.time := by
  intro fls
  induction fls with
  | nil =>
      intro ns nf ns2 nf2 h
      injection h with h2
      injection h2 with ha _
      rw [← ha]
  | cons e rest ih =>
      intro ns nf ns2 nf2 h
      rw [eulerFlowsGo] at h
      obtain ⟨ename, eflow⟩ := e
      cases hev : evalExpr F m oldTime eflow.equation ns with
      | ok vst =>
          obtain ⟨v, temp2⟩ := vst
          rw [hev] at h
          exact (ih _ _ _ _ h).trans rfl
      | error err => rw [hev] at h; exact Except.noConfusion h

/-- A successful Euler step advances the time by exactly dt. -/
theorem eulerStep_time (F : RealFuns) (m : Model) (state : SimulationState) (dt : ℚ)
    (s2 : SimulationState) (h : eulerStep F m state dt = .ok s2) :
    s2.time = state.time + dt := by
  unfold eulerStep at h
  dsimp only at h
  cases hal : eulerAuxLoopGo F m state.time 20 0 { state with time := state.time + dt } [] with
  | error err => rw [hal] at h; exact Except.noConfusion h
  | ok p1 =>
      obtain ⟨ns1, na1⟩ := p1
      have ht1 : ns1.time = state.time + dt := by
        have := eulerAuxLoopGo_time F m state.time 20 0
          { state with time := state.time + dt } [] ns1 na1 hal
        simpa using this
      rw [hal] at h
      dsimp only at h
      cases hfl : eulerFlowsGo F m state.time m.flows ns1 [] with
      | error err => rw [hfl] at h; exact Except.noConfusion h
      | ok p2 =>
          obtain ⟨ns2x, nf⟩ := p2
          have ht2 : ns2x.time = ns1.time :=
            eulerFlowsGo_time F m state.time m.flows ns1 [] ns2x nf hfl
          rw [hfl] at h
          dsimp only at h
          cases hcd : computeDerivatives m nf with
          | error err => rw [hcd] at h; exact Except.noConfusion h
          | ok derivs =>
              rw [hcd] at h
              dsimp only at h
              injection h with h2
              rw [← h2]
              dsimp only
              rw [ht2, ht1]

/-- A successful RK4 step advances the time by exactly dt. -/
theorem rk4Step_time (F : RealFuns) (m : Model) (state : SimulationState) (dt : ℚ)
    (s2 : SimulationState) (h : rk4Step F m state dt = .ok s2) :
    s2.time = state.time + dt := by
  unfold rk4Step at h
  dsimp only at h
  repeat' split at h
  all_goals first
    | exact Except.noConfusion h
    | (injection h with h2; rw [← h2])

/-- A successful Heun step advances the time by exactly dt. -/
theorem heunStep_time (F : RealFuns) (m : Model) (state : SimulationState) (dt : ℚ)
    (s2 : SimulationState) (h : heunStep F m state dt = .ok s2) :
    s2.time = state.time + dt := by
  unfold heunStep at h
  dsimp only at h
  repeat' split at h
  all_goals first
    | exact Except.noConfusion h
    | (injection h with h2; rw [← h2])

/-- The Backward Euler iteration never changes the time of its iterate. -/
theorem beLoopGo_time (F : RealFuns) (m : Model) (p : BackwardEulerParams)
    (olds : List (String × ℚ)) (dt tNext : ℚ) :
    ∀ (remaining iteration : ℕ) (current s2 : SimulationState),
      beLoopGo F m p olds dt tNext remaining iteration current = .ok s2 →
      s2.time = current.time := by
  intro remaining
  induction remaining with
  | zero =>
      intro iteration current s2 h
      injection h with h2
      rw [← h2]
  | succ r ih =>
      intro iteration current s2 h
      rw [beLoopGo] at h
      cases hev : evaluateSystem F m current tNext with
      | error e => rw [hev] at h; exact Except.noConfusion h
      | ok q =>
          obtain ⟨auxs, flows⟩ := q
          rw [hev] at h
          dsimp only at h
          cases hcd : computeDerivatives m flows with
          | error e => rw [hcd] at h; exact Except.noConfusion h
          | ok derivs =>
              rw [hcd] at h
              dsimp only at h
              by_cases hc : (beUpdateStocks m dt derivs olds current.stocks).2 < p.tolerance
                ∧ 0 < iteration
              · rw [if_pos hc] at h
                injection h with h2
                rw [← h2]
              · rw [if_neg hc] at h
                rw [ih _ _ _ h]

/-- A successful Backward Euler step advances the time by exactly dt. -/
theorem beStep_time (F : RealFuns) (m : Model) (p : BackwardEulerParams)
    (state : SimulationState) (dt : ℚ) (s2 : SimulationState)
    (h : beStep F m p state dt = .ok s2) : s2.time = state.time + dt := by
  unfold beStep at h
  dsimp only at h
  cases hev : evaluateSystem F m state state.time with
  | error e => rw [hev] at h; exact Except.noConfusion h
  | ok q =>
      obtain ⟨aux0, flows0⟩ := q
      rw [hev] at h
      dsimp only at h
      cases hcd0 : computeDerivatives m flows0 with
      | error e => rw [hcd0] at h; exact Except.noConfusion h
      | ok deriv0 =>
          rw [hcd0] at h
          dsimp only at h
          rw [beLoopGo_time F m p state.stocks dt (state.time + dt) p.maxIterations 0 _ s2 h]

/-- Every non-RK45 integrator advances the time of a successful step by
exactly dt. -/
theorem integratorStep_time (F : RealFuns) (method : IntegrationMethod) (m : Model)
    (state : SimulationState) (dt : ℚ) (s2 : SimulationState)
    (hm : method ≠ IntegrationMethod.RK45)
    (h : integratorStep F method m state dt = .ok s2) : s2.time = state.time + dt := by
  cases method with
  | Euler => exact eulerStep_time F m state dt s2 h
  | RK4 => exact rk4Step_time F m state dt s2 h
  | RK45 => exact absurd rfl hm
  | Heun => exact heunStep_time F m state dt s2 h
  | BackwardEuler => exact beStep_time F m BackwardEulerParams.dfl state dt s2 h

/-- When the time is exactly a whole number of dt-steps below stop, dt is
positive and the method is not RK45, the run loop (with enough fuel) computes
the same final state as that many step() invocations. -/
theorem runLoop_eq_stepN (F : RealFuns) (m : Model) (cfg : SimulationConfig)
    (hm : cfg.integrationMethod ≠ IntegrationMethod.RK45) (hdt : 0 < m.time.dt) :
    ∀ (k fuel : ℕ) (state : SimulationState) (results : SimulationResults),
      k ≤ fuel → state.time + k * m.time.dt = m.time.stop →
      (runLoop F m cfg fuel state results).map Prod.snd = engineStepN F m cfg k state := by
  intro k
  induction k with
  | zero =>
      intro fuel state results _ hk
      have hg : ¬ state.time < m.time.stop := by
        rw [← hk]
        push_cast
        simp
      rw [runLoop_stop F m cfg fuel state results hg]
      rfl
  | succ k ih =>
      intro fuel state results hfuel hk
      obtain ⟨fuel2, rfl⟩ : ∃ fuel2, fuel = fuel2 + 1 := ⟨fuel - 1, by omega⟩
      have hkd : (0 : ℚ) ≤ (k : ℚ) * m.time.dt :=
        mul_nonneg (Nat.cast_nonneg k) (le_of_lt hdt)
      have hg : state.time < m.time.stop := by
        rw [← hk]
        push_cast
        nlinarith
      rw [runLoop.eq_def]
      dsimp only
      rw [if_pos hg]
      cases hstep : integratorStep F cfg.integrationMethod m state m.time.dt with
      | error e =>
          simp only [engineStepN, engineStepOnce, hstep]
          rfl
      | ok s1 =>
          dsimp only
          have ht1 : s1.time = state.time + m.time.dt :=
            integratorStep_time F cfg.integrationMethod m state m.time.dt s1 hm hstep
          have hcl : ¬ s1.time > m.time.stop := by
            rw [ht1, ← hk]
            push_cast
            nlinarith
          rw [if_neg hcl]
          have hrhs : engineStepN F m cfg (k + 1) state = engineStepN F m cfg k s1 := by
            rw [engineStepN]
            simp only [engineStepOnce, hstep]
          rw [hrhs]
          exact ih fuel2 s1 _ (by omega) (by rw [ht1, ← hk]; push_cast; ring)

/-- Initialization sets the time to start. -/
theorem initFromModel_time (F : RealFuns) (m : Model) (st0 : SimulationState)
    (h : initFromModel F m = .ok st0) : st0.time = m.time.start := by
  have hgo : ∀ (l : List (String × Stock)) (st st2 : SimulationState),
      initStocksGo F m m.time.start l st = .ok st2 → st2.time = st.time := by
    intro l
    induction l with
    | nil =>
        intro st st2 h2
        injection h2 with h3
        rw [← h3]
    | cons e rest ih =>
        intro st st2 h2
        rw [initStocksGo] at h2
        obtain ⟨ename, estock⟩ := e
        cases hev : evalExpr F m m.time.start estock.initial st with
        | error err => rw [hev] at h2; exact Except.noConfusion h2
        | ok vst =>
            obtain ⟨v, temp2⟩ := vst
            rw [hev] at h2
            exact (ih _ _ h2).trans rfl
  unfold initFromModel at h
  cases hgo2 : initStocksGo F m m.time.start m.stocks
      { SimulationState.mkNew with time := m.time.start } with
  | error e => rw [hgo2] at h; exact Except.noConfusion h
  | ok st =>
      rw [hgo2] at h
      dsimp only at h
      injection h with h2
      rw [← h2]
      exact hgo m.stocks _ st hgo2

/-- C8 (amended): for every non-RK45 method, positive dt and
(stop − start)/dt = a whole number k of steps, run() from a fresh engine and k
invocations of step() from the freshly initialized state reach the same final
state (recording aside, hence the projection to the second component). -/
theorem run_vs_stepn_amended (F : RealFuns) (m : Model) (cfg : SimulationConfig)
    (fuel k : ℕ) (st0 : SimulationState)
    (hm : cfg.integrationMethod ≠ IntegrationMethod.RK45)
    (hdt : 0 < m.time.dt)
    (hk : m.time.start + k * m.time.dt = m.time.stop)
    (hfuel : k ≤ fuel)
    (h0 : initFromModel F m = .ok st0) :
    (engineRun F m cfg fuel).map Prod.snd = engineStepN F m cfg k st0 := by
  unfold engineRun
  rw [h0]
  exact runLoop_eq_stepN F m cfg hm hdt k fuel st0 _ hfuel
    (by rw [initFromModel_time F m st0 h0]; exact hk)

/-- Witness for the amended C8 at concrete inputs: the Euler growth run of one
step equals one step() invocation from the initialized state. -/
theorem run_vs_stepn_amended_witness :
    (engineRun F0 modelGrowth SimulationConfig.dfl 2).map Prod.snd
      = engineStepN F0 modelGrowth SimulationConfig.dfl 1 stGrowth0 :=
  run_vs_stepn_amended F0 modelGrowth SimulationConfig.dfl 2 1 stGrowth0
    (by with_unfolding_all decide) (by with_unfolding_all decide)
    (by with_unfolding_all decide) (by decide) (by with_unfolding_all rfl)

/-- The state the Tank model initializes to. -/
def stTank0 : SimulationState :=
  { time := 0, stocks := [("Tank", 5)], flows := [("drain", 0)],
    auxiliaries := [], delays := DelayManager.mkNew }

/-- The Tank model after one Euler step: 5 − 1·10 = −5 clamped to 0. -/
def stTank1 : SimulationState :=
  { time := 1, stocks := [("Tank", 0)], flows := [("drain", 10)],
    auxiliaries := [], delays := DelayManager.mkNew }

/-- C3 (amended): in every successful engine run, every recorded state is
either the raw initial state from initialize_from_model (recorded unclamped)
or an integrator-step output, in which each value stored at the name of a
model stock is a clamped value — hence ≥ 0 when the stock is non_negative
(provided its ceiling, if any, is itself ≥ 0) and ≤ M when max_value = M; in
particular the Tank scenario (initial 5, constant outflow 10, non_negative,
one Euler step of dt 1) records Tank = 5 then Tank = 0, not −5. -/
theorem stock_constraints_amended :
    (∀ (F : RealFuns) (m : Model) (cfg : SimulationConfig) (fuel : ℕ)
      (res : SimulationResults) (last : SimulationState),
      engineRun F m cfg fuel = .ok (res, last) →
      ∀ s ∈ res.states, initFromModel F m = .ok s ∨
        ∀ name stock v, aget m.stocks name = some stock → aget s.stocks name = some v →
          (stock.nonNegative = true → (∀ M, stock.maxValue = some M → 0 ≤ M) → 0 ≤ v)
          ∧ (∀ M, stock.maxValue = some M → v ≤ M))
  ∧ (engineRun F0 modelTank SimulationConfig.dfl 1).map
      (fun p => p.1.states.map (fun s => aget s.stocks "Tank")) = .ok [some 5, some 0] := by
  constructor
  · intro F m cfg fuel res last h s hs
    unfold engineRun at h
    cases h0 : initFromModel F m with
    | error e => rw [h0] at h; exact Except.noConfusion h
    | ok st0 =>
        rw [h0] at h
        rcases runLoop_states_source F m cfg fuel st0 _ res last h s hs with
          hmem | ⟨s0, s1, hstep, hcase⟩
        · left
          have hmem2 : s ∈ [st0] := hmem
          rw [List.mem_singleton.mp hmem2]
        · right
          intro name stock v hstock hget
          have hget1 : aget s1.stocks name = some v := by
            rcases hcase with rfl | rfl
            · exact hget
            · exact hget
          obtain ⟨w, hw⟩ := integratorStep_clamped F cfg.integrationMethod m s0 m.time.dt s1
            name stock v hstep hstock hget1
          subst hw
          exact ⟨fun hnn hM => clampStock_nonneg m name stock w hstock hnn hM,
            fun M hM => clampStock_le_max m name stock M w hstock hM⟩
  · have h0 : initFromModel F0 modelTank = .ok stTank0 := by with_unfolding_all rfl
    have hs1 : integratorStep F0 SimulationConfig.dfl.integrationMethod modelTank stTank0
        modelTank.time.dt = .ok stTank1 := by with_unfolding_all rfl
    simp only [engineRun, h0]
    rw [runLoop_next F0 modelTank SimulationConfig.dfl 0 stTank0 _ stTank1
        (by with_unfolding_all decide) hs1 (by with_unfolding_all decide) rfl,
      runLoop_stop F0 modelTank SimulationConfig.dfl 0 stTank1 _
        (by with_unfolding_all decide)]
    with_unfolding_all rfl

/-- Witness for the amended C3 at a concrete run: the Tank run succeeds and
each recorded state is the initial one or satisfies the clamp bounds. -/
theorem stock_constraints_amended_witness :
    ∀ s ∈ [stTank0, stTank1], initFromModel F0 modelTank = .ok s ∨
      ∀ name stock v, aget modelTank.stocks name = some stock →
        aget s.stocks name = some v →
        (stock.nonNegative = true → (∀ M, stock.maxValue = some M → 0 ≤ M) → 0 ≤ v)
        ∧ (∀ M, stock.maxValue = some M → v ≤ M) := by
  have hrun : engineRun F0 modelTank SimulationConfig.dfl 1
      = .ok ({ times := [0, 1], states := [stTank0, stTank1] }, stTank1) := by
    have h0 : initFromModel F0 modelTank = .ok stTank0 := by with_unfolding_all rfl
    have hs1 : integratorStep F0 SimulationConfig.dfl.integrationMethod modelTank stTank0
        modelTank.time.dt = .ok stTank1 := by with_unfolding_all rfl
    simp only [engineRun, h0]
    rw [runLoop_next F0 modelTank SimulationConfig.dfl 0 stTank0 _ stTank1
        (by with_unfolding_all decide) hs1 (by with_unfolding_all decide) rfl,
      runLoop_stop F0 modelTank SimulationConfig.dfl 0 stTank1 _
        (by with_unfolding_all decide)]
    with_unfolding_all rfl
  exact stock_constraints_amended.1 F0 modelTank SimulationConfig.dfl 1
    { times := [0, 1], states := [stTank0, stTank1] } stTank1 hrun

/-- The order-1 exponential delay the DELAY1 call of modelDelay registers
under its call-site key. -/
def delayD1 : ExponentialDelay :=
  { value := 0, delayTime := 10, order := 1, stages := [0] }

/-- The delay registry of the delay model once the DELAY1 call has run. -/
def dmD1 : DelayManager :=
  { exponentialDelays := [("DELAY1_1_10_0", delayD1)], pipelineDelays := [] }

/-- The delay-model state family the Euler run walks through: the delay stays
at value 0 because each step feeds the delay its own value back as input. -/
def mkSt (t : ℚ) : SimulationState :=
  { time := t, stocks := [("S", 0)], flows := [("d", 0)], auxiliaries := [], delays := dmD1 }

/-- The state the delay model initializes to (no delay registered yet). -/
def stDelay0 : SimulationState :=
  { time := 0, stocks := [("S", 0)], flows := [("d", 0)], auxiliaries := [],
    delays := DelayManager.mkNew }

/-- The DELAY1 step response the spec describes: on each step of size
dt = 1/10 the output advances by dt · (input − output)/τ with input the value
of the delay call's first argument, the constant 1, and τ = 10.  This
definition follows the spec text, for comparison against the embedded code. -/
def specDelay1Out : ℕ → ℚ
  | 0 => 0
  | n + 1 => specDelay1Out n + (1/10) * ((1 : ℚ) - specDelay1Out n) / 10

/-- Closed form of the spec step response: 1 − (99/100)ⁿ after n steps. -/
theorem specDelay1Out_closed : ∀ n, specDelay1Out n = 1 - (99/100 : ℚ)^n
  | 0 => by norm_num [specDelay1Out]
  | n + 1 => by
      rw [specDelay1Out, specDelay1Out_closed n, pow_succ]
      ring

/-- From any state of the family, one Euler step of the delay model lands back
in the family one dt later: the delay update reads the delay's own value as
its input, so the output never moves off 0. -/
theorem delayRunLoop :
    ∀ (k : ℕ) (t : ℚ) (results : SimulationResults),
      t + (k : ℚ) * (1/10) = 50 →
      ∃ results2, runLoop F0 modelDelay SimulationConfig.dfl k (mkSt t) results
        = .ok (results2, mkSt 50) := by
  have hstep : ∀ t : ℚ, integratorStep F0 SimulationConfig.dfl.integrationMethod modelDelay
      (mkSt t) modelDelay.time.dt = .ok (mkSt (t + 1/10)) := fun t => by
    with_unfolding_all rfl
  intro k
  induction k with
  | zero =>
      intro t results hk
      have ht : t = 50 := by push_cast at hk; linarith
      subst ht
      exact ⟨results, runLoop_stop F0 modelDelay SimulationConfig.dfl 0 (mkSt 50) results
        (by with_unfolding_all decide)⟩
  | succ k ih =>
      intro t results hk
      have hk0 : (0:ℚ) ≤ (k : ℚ) := Nat.cast_nonneg k
      have hg : (mkSt t).time < modelDelay.time.stop := by
        show t < 50
        push_cast at hk
        linarith
      have hcl : ¬ (mkSt (t + 1/10)).time > modelDelay.time.stop := by
        show ¬ t + 1/10 > 50
        push_cast at hk
        linarith
      obtain ⟨r2, hr⟩ := ih (t + 1/10)
        (results.addPoint (mkSt (t + 1/10)).time (mkSt (t + 1/10)))
        (by push_cast at hk ⊢; linarith)
      exact ⟨r2, by
        rw [runLoop_next F0 modelDelay SimulationConfig.dfl k (mkSt t) results
          (mkSt (t + 1/10)) hg (hstep t) hcl rfl]
        exact hr⟩

/-- C2: code bug.  Euler updates each exponential delay with the delay's own
current value as input (a placeholder in the source), so for the model feeding
the constant 1 through DELAY1(1, 10, 0) over 50 time units at dt = 1/10 the
run ends at time 50 with the DELAY1 flow and the fed stock both exactly 0,
while the step response the spec describes — each step advances the output by
dt · (input − output)/τ with input 1 — reaches 1 − (99/100)⁵⁰⁰ ≥ 99/100 ≈ the
claimed 0.9933, not 0. -/
theorem delay1_placeholder_input_bug :
    (engineRun F0 modelDelay SimulationConfig.dfl 500).map
        (fun p => (p.2.time, aget p.2.flows "d", aget p.2.stocks "S"))
      = .ok (50, some 0, some 0)
  ∧ (aget dmD1.exponentialDelays "DELAY1_1_10_0").map ExponentialDelay.value = some 0
  ∧ (99/100 : ℚ) ≤ specDelay1Out 500 := by
  refine ⟨?_, by with_unfolding_all rfl, ?_⟩
  · have h0 : initFromModel F0 modelDelay = .ok stDelay0 := by with_unfolding_all rfl
    have hstep0 : integratorStep F0 SimulationConfig.dfl.integrationMethod modelDelay stDelay0
        modelDelay.time.dt = .ok (mkSt (1/10)) := by with_unfolding_all rfl
    simp only [engineRun, h0]
    rw [runLoop_next F0 modelDelay SimulationConfig.dfl 499 stDelay0 _ (mkSt (1/10))
      (by with_unfolding_all decide) hstep0 (by with_unfolding_all decide) rfl]
    obtain ⟨r2, hr⟩ := delayRunLoop 499 (1/10) _ (by norm_num)
    rw [hr]
    with_unfolding_all rfl
  · rw [specDelay1Out_closed]
    have h1 : (99/100 : ℚ)^500 ≤ 1/100 := by norm_num
    linarith


/-- Strictly increasing x-coordinates (adjacent pairs). -/
def xsStrictInc : List (ℚ × ℚ) → Bool
  | p :: q :: rest => if p.1 < q.1 then xsStrictInc (q :: rest) else false
  | _ => true

/-- The Bool check coincides with the chain of strict x-inequalities. -/
theorem xsStrictInc_chain :
    ∀ l : List (ℚ × ℚ), xsStrictInc l = true ↔ List.Chain' (fun p q : ℚ×ℚ => p.1 < q.1) l
  | [] => by simp [xsStrictInc]
  | [p] => by simp [xsStrictInc]
  | p :: q :: rest => by
      rw [xsStrictInc]
      by_cases hpq : p.1 < q.1
      · rw [if_pos hpq, xsStrictInc_chain (q :: rest), List.chain'_cons]
        simp [hpq]
      · rw [if_neg hpq]
        simp [List.chain'_cons, hpq]

/-- The bracket scan skips every entry whose x lies below the probe and
interpolates at the first bracket end at or past it. -/
theorem lookupScan_through :
    ∀ (mid : List (ℚ × ℚ)) (prev : ℚ × ℚ) (x x1 y1 x2 y2 : ℚ) (suf : List (ℚ × ℚ)),
      (∀ q ∈ mid, ¬ x ≤ q.1) → ¬ x ≤ x1 → x ≤ x2 →
      lookupScan x prev (mid ++ (x1, y1) :: (x2, y2) :: suf)
        = y1 + ((x - x1) / (x2 - x1)) * (y2 - y1) := by
  intro mid
  induction mid with
  | nil =>
      intro prev x x1 y1 x2 y2 suf _ h1 h2
      rw [List.nil_append, lookupScan, if_neg h1, lookupScan, if_pos h2]
  | cons q mid ih =>
      intro prev x x1 y1 x2 y2 suf hmid h1 h2
      rw [List.cons_append, lookupScan,
        if_neg (hmid q (List.mem_cons_self q mid))]
      exact ih q x x1 y1 x2 y2 suf (fun r hr => hmid r (List.mem_cons_of_mem q hr)) h1 h2

/-- One unfolding of lookup on a nonempty point list. -/
theorem lookup_points_cons (t : LookupTable) (x x0 y0 : ℚ) (rest : List (ℚ × ℚ))
    (hp : t.points = (x0, y0) :: rest) :
    t.lookup x = if x ≤ x0 then y0
      else if x ≥ (((x0, y0) :: rest).getLast (by simp)).1
        then (((x0, y0) :: rest).getLast (by simp)).2
        else lookupScan x (x0, y0) rest := by
  unfold LookupTable.lookup
  rw [hp]

/-- On a strictly increasing table, a probe inside a bracket (strictly above
its left x, at or below its right x) interpolates linearly in that bracket. -/
theorem lookup_bracket_strict (t : LookupTable) (x : ℚ) (pre : List (ℚ × ℚ))
    (x1 y1 x2 y2 : ℚ) (suf : List (ℚ × ℚ))
    (hp : t.points = pre ++ (x1, y1) :: (x2, y2) :: suf)
    (hs : xsStrictInc t.points = true)
    (h1 : x1 < x) (h2 : x ≤ x2) :
    t.lookup x = y1 + ((x - x1) / (x2 - x1)) * (y2 - y1) := by
  haveI : IsTrans (ℚ×ℚ) (fun p q : ℚ×ℚ => p.1 < q.1) :=
    ⟨fun a b c ha hb => lt_trans ha hb⟩
  have hpw : List.Pairwise (fun p q : ℚ×ℚ => p.1 < q.1) t.points :=
    List.chain'_iff_pairwise.mp ((xsStrictInc_chain t.points).mp hs)
  rw [hp] at hpw
  have hx12 : x1 < x2 := by
    rcases List.pairwise_append.mp hpw with ⟨_, hrest, _⟩
    exact (List.pairwise_cons.mp hrest).1 (x2, y2) (List.mem_cons_self _ _)
  have hpre : ∀ q ∈ pre, q.1 < x1 := by
    rcases List.pairwise_append.mp hpw with ⟨_, _, hrel⟩
    intro q hq
    exact hrel q hq (x1, y1) (List.mem_cons_self _ _)
  have hinterp_self : y1 + ((x2 - x1) / (x2 - x1)) * (y2 - y1) = y2 := by
    rw [div_self (sub_ne_zero.mpr (ne_of_gt hx12))]
    ring
  cases pre with
  | nil =>
      rw [lookup_points_cons t x x1 y1 ((x2, y2) :: suf) (by simpa using hp)]
      rw [if_neg (not_le.mpr h1)]
      cases suf with
      | nil =>
          rw [show (((x1, y1) :: (x2, y2) :: ([] : List (ℚ × ℚ))).getLast (by simp))
            = (x2, y2) from rfl]
          by_cases hge : x ≥ x2
          · rw [if_pos hge]
            have hx : x = x2 := le_antisymm h2 hge
            rw [hx, hinterp_self]
          · rw [if_neg hge, lookupScan, if_pos h2]
      | cons s0 suf2 =>
          have hlast : ((x1, y1) :: (x2, y2) :: s0 :: suf2).getLast (by simp)
              = (s0 :: suf2).getLast (by simp) := by
            simp
          rw [hlast]
          have hmem := List.getLast_mem (l := s0 :: suf2) (by simp)
          have hx2last : x2 < ((s0 :: suf2).getLast (by simp)).1 := by
            rcases List.pairwise_cons.mp (List.pairwise_cons.mp hpw).2 with ⟨hrel2, _⟩
            exact hrel2 _ hmem
          rw [if_neg (by push_neg; exact lt_of_le_of_lt h2 hx2last)]
          rw [lookupScan, if_pos h2]
  | cons p0 pre2 =>
      obtain ⟨p0x, p0y⟩ := p0
      rw [lookup_points_cons t x p0x p0y (pre2 ++ (x1, y1) :: (x2, y2) :: suf)
        (by simpa using hp)]
      have hp0 : p0x < x1 := hpre (p0x, p0y) (List.mem_cons_self _ _)
      rw [if_neg (not_le.mpr (lt_trans hp0 h1))]
      have hscan : lookupScan x (p0x, p0y) (pre2 ++ (x1, y1) :: (x2, y2) :: suf)
          = y1 + ((x - x1) / (x2 - x1)) * (y2 - y1) :=
        lookupScan_through pre2 (p0x, p0y) x x1 y1 x2 y2 suf
          (fun q hq => not_le.mpr (lt_trans (hpre q (List.mem_cons_of_mem _ hq)) h1))
          (not_le.mpr h1) h2
      cases suf with
      | nil =>
          have hlast : (((p0x, p0y) :: (pre2 ++ (x1, y1) :: (x2, y2) :: ([] : List (ℚ × ℚ))))
              ).getLast (by simp) = (x2, y2) := by
            simp
          rw [hlast]
          by_cases hge : x ≥ x2
          · rw [if_pos hge]
            have hx : x = x2 := le_antisymm h2 hge
            rw [hx, hinterp_self]
          · rw [if_neg hge]
            exact hscan
      | cons s0 suf2 =>
          have hlast : (((p0x, p0y) :: (pre2 ++ (x1, y1) :: (x2, y2) :: s0 :: suf2))
              ).getLast (by simp) = (s0 :: suf2).getLast (by simp) := by
            simp
          rw [hlast]
          have hmem := List.getLast_mem (l := s0 :: suf2) (by simp)
          have hx2last : x2 < ((s0 :: suf2).getLast (by simp)).1 := by
            rcases List.pairwise_append.mp hpw with ⟨_, hrest, _⟩
            rcases List.pairwise_cons.mp hrest with ⟨_, hrest2⟩
            rcases List.pairwise_cons.mp hrest2 with ⟨hrel2, _⟩
            exact hrel2 _ hmem
          rw [if_neg (by push_neg; exact lt_of_le_of_lt h2 hx2last)]
          exact hscan



/-- A strictly increasing three-point table. -/
def tableW : LookupTable := { name := "w", points := [(0, 0), (1, 10), (2, 5)] }

/-- C9 (amended): lookup clamps to the first y at or below the first x and to
the last y at or past the last x, and returns 0 on an empty point list, for
every table; on tables with strictly increasing x-coordinates (the constructor
also accepts duplicated x, where the first bracket wins instead) a probe in a
bracket interpolates linearly and a breakpoint probe returns that breakpoint's
y. -/
theorem lookup_semantics_amended :
    (∀ (t : LookupTable) (x : ℚ), t.points = [] → t.lookup x = 0)
  ∧ (∀ (t : LookupTable) (x x0 y0 : ℚ) (rest : List (ℚ × ℚ)),
      t.points = (x0, y0) :: rest → x ≤ x0 → t.lookup x = y0)
  ∧ (∀ (t : LookupTable) (x x0 y0 : ℚ) (rest : List (ℚ × ℚ)),
      t.points = (x0, y0) :: rest → ¬ x ≤ x0 →
      x ≥ (((x0, y0) :: rest).getLast (by simp)).1 →
      t.lookup x = (((x0, y0) :: rest).getLast (by simp)).2)
  ∧ (∀ (t : LookupTable) (x x1 y1 x2 y2 : ℚ) (pre suf : List (ℚ × ℚ)),
      t.points = pre ++ (x1, y1) :: (x2, y2) :: suf → xsStrictInc t.points = true →
      x1 < x → x ≤ x2 → t.lookup x = y1 + ((x - x1) / (x2 - x1)) * (y2 - y1))
  ∧ (∀ (t : LookupTable) (xb yb : ℚ), xsStrictInc t.points = true → (xb, yb) ∈ t.points →
      t.lookup xb = yb) := by
  haveI : IsTrans (ℚ×ℚ) (fun p q : ℚ×ℚ => p.1 < q.1) :=
    ⟨fun a b c ha hb => lt_trans ha hb⟩
  refine ⟨?_, ?_, ?_, ?_, ?_⟩
  · intro t x h
    unfold LookupTable.lookup
    rw [h]
  · intro t x x0 y0 rest hp hx
    rw [lookup_points_cons t x x0 y0 rest hp, if_pos hx]
  · intro t x x0 y0 rest hp hx hl
    rw [lookup_points_cons t x x0 y0 rest hp, if_neg hx, if_pos hl]
  · intro t x x1 y1 x2 y2 pre suf hp hs h1 h2
    exact lookup_bracket_strict t x pre x1 y1 x2 y2 suf hp hs h1 h2
  · intro t xb yb hs hmem
    obtain ⟨pre, suf, hp⟩ := List.append_of_mem hmem
    rcases List.eq_nil_or_concat pre with rfl | ⟨pre2, p1, rfl⟩
    · rw [lookup_points_cons t xb xb yb suf (by simpa using hp), if_pos le_rfl]
    · obtain ⟨p1x, p1y⟩ := p1
      have hp2 : t.points = pre2 ++ (p1x, p1y) :: (xb, yb) :: suf := by
        rw [hp]
        simp
      have hpw : List.Pairwise (fun p q : ℚ×ℚ => p.1 < q.1) t.points :=
        List.chain'_iff_pairwise.mp ((xsStrictInc_chain t.points).mp hs)
      have hlt : p1x < xb := by
        rw [hp2] at hpw
        rcases List.pairwise_append.mp hpw with ⟨_, hrest, _⟩
        exact (List.pairwise_cons.mp hrest).1 (xb, yb) (List.mem_cons_self _ _)
      rw [lookup_bracket_strict t xb pre2 p1x p1y xb yb suf hp2 hs hlt le_rfl,
        div_self (sub_ne_zero.mpr (ne_of_gt hlt))]
      ring

/-- Witness for the amended C9: interpolation in the first bracket of a
concrete strictly increasing table. -/
theorem lookup_semantics_amended_witness :
    tableW.lookup (1/2) = 0 + ((1/2 - 0) / (1 - 0)) * (10 - 0) :=
  lookup_semantics_amended.2.2.2.1 tableW (1/2) 0 0 1 10 [] [(2, 5)] rfl
    (by with_unfolding_all rfl) (by norm_num) (by norm_num)


/-- str::trim: strip whitespace from both ends. -/
def trim (l : List Char) : List Char :=
  ((l.dropWhile Char.isWhitespace).reverse.dropWhile Char.isWhitespace).reverse

/-- Value of a digit run. -/
def digitsVal (l : List Char) : ℕ :=
  l.foldl (fun acc c => acc * 10 + (c.toNat - 48)) 0

/-- The exponent suffix of an f64 literal: empty, or e/E, optional sign and a
nonempty digit run consuming the rest. -/
def parseExpSuffix (mant : ℚ) : List Char → Option ℚ
  | [] => some mant
  | e :: rest =>
      if e = 'e' ∨ e = 'E' then
        let (esgn, rest2) : ℤ × List Char := match rest with
          | '+' :: r => (1, r)
          | '-' :: r => (-1, r)
          | _ => (1, rest)
        let ds := rest2.takeWhile Char.isDigit
        if ds ≠ [] ∧ rest2.dropWhile Char.isDigit = [] then
          some (mant * (10 : ℚ) ^ (esgn * (digitsVal ds : ℤ)))
        else none
      else none

/-- str::parse::<f64> on the decimal grammar sign? digits [. digits] [exp]
(or .digits): the embedding reads finite decimal literals into ℚ; the special
forms inf and nan have no ℚ image and are not modelled. -/
def parseF64 (l : List Char) : Option ℚ :=
  let (sgn, l1) : ℚ × List Char := match l with
    | '+' :: r => (1, r)
    | '-' :: r => (-1, r)
    | _ => (1, l)
  let intPart := l1.takeWhile Char.isDigit
  let r1 := l1.dropWhile Char.isDigit
  match r1 with
  | '.' :: r2 =>
      let fracPart := r2.takeWhile Char.isDigit
      let r3 := r2.dropWhile Char.isDigit
      if intPart = [] ∧ fracPart = [] then none
      else parseExpSuffix (sgn * ((digitsVal intPart : ℚ)
        + (digitsVal fracPart : ℚ) / (10 : ℚ) ^ fracPart.length)) r3
  | _ => if intPart = [] then none else parseExpSuffix (sgn * (digitsVal intPart : ℚ)) r1

/-- First index of a character (str::find for a char pattern). -/
def findCharIdx (c : Char) : List Char → Option ℕ
  | [] => none
  | d :: rest => if d = c then some 0 else (findCharIdx c rest).map (· + 1)

/-- First index where a substring starts (str::find for a str pattern). -/
def findSubGo (sub : List Char) : List Char → ℕ → Option ℕ
  | l, i =>
      if sub.isPrefixOf l then some i
      else match l with
        | [] => none
        | _ :: rest => findSubGo sub rest (i + 1)

/-- The rightmost operator character at parenthesis depth 0 (the scan shared
by try_parse_binary and the single-character comparison scan; the source depth
counter is a signed integer). -/
def scanLastOp (ops : List Char) : List Char → ℕ → ℤ → Option (ℕ × Char) → Option (ℕ × Char)
  | [], _, _, acc => acc
  | c :: rest, i, depth, acc =>
      if c = '(' then scanLastOp ops rest (i + 1) (depth + 1) acc
      else if c = ')' then scanLastOp ops rest (i + 1) (depth - 1) acc
      else if depth = 0 ∧ c ∈ ops then scanLastOp ops rest (i + 1) depth (some (i, c))
      else scanLastOp ops rest (i + 1) depth acc

/-- Expression::split_function_args: split on commas at parenthesis depth 0,
trimming each piece; the final piece is kept only if nonempty. -/
def splitArgsGo : List Char → ℤ → List Char → List (List Char)
  | [], _, cur => if trim cur = [] then [] else [trim cur]
  | c :: rest, depth, cur =>
      if c = '(' then splitArgsGo rest (depth + 1) (cur ++ [c])
      else if c = ')' then splitArgsGo rest (depth - 1) (cur ++ [c])
      else if c = ',' ∧ depth = 0 then trim cur :: splitArgsGo rest 0 []
      else splitArgsGo rest depth (cur ++ [c])

/-- Expression::match_keyword_at: the keyword occurs at pos with non-letter
(or boundary) characters on both sides. -/
def matchKeywordAt (s : List Char) (pos : ℕ) (kw : List Char) : Bool :=
  if s.length < pos + kw.length then false
  else if (s.drop pos).take kw.length ≠ kw then false
  else
    (decide (pos = 0) || match s.get? (pos - 1) with
      | some c => !c.isAlpha
      | none => true)
    && (decide (pos + kw.length = s.length) || match s.get? (pos + kw.length) with
      | some c => !c.isAlpha
      | none => true)

/-- The scan of Expression::find_if_then_else_positions, with fuel bounding
the loop (the source loop advances by at least one each iteration, so
length + 1 fuel is exact). -/
def findITEGo (u : List Char) : ℕ → ℕ → ℕ → Option ℕ → Option (ℕ × ℕ)
  | 0, _, _, _ => none
  | fuel + 1, i, depth, thenPos =>
      if i < u.length then
        if matchKeywordAt u i ['I', 'F'] then findITEGo u fuel (i + 2) (depth + 1) thenPos
        else if matchKeywordAt u i ['T', 'H', 'E', 'N'] then
          if depth = 1 ∧ thenPos = none then findITEGo u fuel (i + 4) depth (some i)
          else if 1 < depth then findITEGo u fuel (i + 4) (depth - 1) thenPos
          else findITEGo u fuel (i + 4) depth thenPos
        else if matchKeywordAt u i ['E', 'L', 'S', 'E'] then
          match thenPos with
          | some tp =>
              if depth = 1 then some (tp, i)
              else if 1 < depth then findITEGo u fuel (i + 4) (depth - 1) (some tp)
              else findITEGo u fuel (i + 4) depth (some tp)
          | none =>
              if 1 < depth then findITEGo u fuel (i + 4) (depth - 1) none
              else findITEGo u fuel (i + 4) depth none
        else findITEGo u fuel (i + 1) depth thenPos
      else none

/-- Expression::try_parse_conditional, parameterized by the recursive parser:
an input starting with IF (case-insensitively) and containing its THEN and
ELSE parses the three slices of the original string; errors propagate. -/
def tryParseConditional (p : List Char → Except String Expression) (s : List Char) :
    Option (Except String Expression) :=
  let u := s.map Char.toUpper
  if u.take 3 ≠ ['I', 'F', ' '] then none
  else match findITEGo u (u.length + 1) 0 0 none with
    | none => none
    | some (tp, ep) =>
        some (match p (trim ((s.take tp).drop 3)) with
          | .error e => .error e
          | .ok c =>
              match p (trim ((s.take ep).drop (tp + 4))) with
              | .error e => .error e
              | .ok te =>
                  match p (trim (s.drop (ep + 4))) with
                  | .error e => .error e
                  | .ok fe => .ok (.Conditional c te fe))

/-- The two-character comparison loop of Expression::try_parse_comparison:
first occurrence of each operator in order; an empty operand or a failing
operand parse falls through to the next operator. -/
def tryTwoCharOps (p : List Char → Except String Expression) (s : List Char) :
    List (List Char × Operator) → Option Expression
  | [] => none
  | (opStr, op) :: rest =>
      match findSubGo opStr s 0 with
      | some pos =>
          let left := trim (s.take pos)
          let right := trim (s.drop (pos + 2))
          if left ≠ [] ∧ right ≠ [] then
            match p left, p right with
            | .ok le, .ok re => some (.BinaryOp op le re)
            | _, _ => tryTwoCharOps p s rest
          else tryTwoCharOps p s rest
      | none => tryTwoCharOps p s rest

/-- Expression::try_parse_comparison: two-character operators first, then the
rightmost top-level single < or >. -/
def tryParseComparison (p : List Char → Except String Expression) (s : List Char) :
    Option Expression :=
  match tryTwoCharOps p s [(['>', '='], .GreaterEqual), (['<', '='], .LessEqual),
      (['=', '='], .Equal), (['!', '='], .NotEqual)] with
  | some e => some e
  | none =>
      match scanLastOp ['>', '<'] s 0 0 none with
      | none => none
      | some (pos, c) =>
          let left := trim (s.take pos)
          let right := trim (s.drop (pos + 1))
          if left = [] ∨ right = [] then none
          else match p left, p right with
            | .ok le, .ok re =>
                if c = '>' then some (.BinaryOp .GreaterThan le re)
                else if c = '<' then some (.BinaryOp .LessThan le re)
                else none
            | _, _ => none

/-- The operator of a binary operator character. -/
def charToOp (c : Char) : Option Operator :=
  if c = '+' then some .Add
  else if c = '-' then some .Subtract
  else if c = '*' then some .Multiply
  else if c = '/' then some .Divide
  else if c = '^' then some .Power
  else none

/-- Expression::try_parse_binary: rightmost top-level operator from the set;
empty operands or a failing operand parse give up (returning control to the
caller, which tries the next alternative). -/
def tryParseBinary (p : List Char → Except String Expression) (ops : List Char)
    (s : List Char) : Option Expression :=
  match scanLastOp ops s 0 0 none with
  | none => none
  | some (pos, c) =>
      let left := trim (s.take pos)
      let right := trim (s.drop (pos + 1))
      if left = [] ∨ right = [] then none
      else match p left, p right with
        | .ok le, .ok re =>
            match charToOp c with
            | some op => some (.BinaryOp op le re)
            | none => none
        | _, _ => none

/-- The argument-collection loop of the function-call branch: parse each split
argument, propagating the first error. -/
def parseArgsGo (p : List Char → Except String Expression) :
    List (List Char) → Except String (List Expression)
  | [] => .ok []
  | a :: rest =>
      match p (trim a) with
      | .error e => .error e
      | .ok ea =>
          match parseArgsGo p rest with
          | .error e => .error e
          | .ok es => .ok (ea :: es)

/-- A subscript slice: * is the wildcard, anything else an element. -/
def subRefOf (a : List Char) : SubscriptRef :=
  if trim a = ['*'] then .Wildcard else .Element (String.mk (trim a))

/-- The tail of Expression::parse after the function-call check: unary minus
(propagating errors), subscripted variable, then the variable fallback. -/
def parseTail3 (p : List Char → Except String Expression) (s : List Char) :
    Except String Expression :=
  if s.head? = some '-' then
    match p (s.drop 1) with
    | .error e => .error e
    | .ok inner => .ok (.UnaryOp .Negate inner)
  else match findCharIdx '[' s with
    | some bidx =>
        if s.getLast? = some ']' then
          .ok (.SubscriptedVariable (String.mk (trim (s.take bidx)))
            (((s.dropLast).drop (bidx + 1) |> (splitArgsGo · 0 [])).map subRefOf))
        else .ok (.Variable (String.mk s))
    | none => .ok (.Variable (String.mk s))

/-- The function-call branch of Expression::parse: a ( at a positive index, a
trailing ) and a nonempty name parse the split arguments; otherwise control
falls through to the remaining branches. -/
def parseTail2 (p : List Char → Except String Expression) (s : List Char) :
    Except String Expression :=
  match findCharIdx '(' s with
  | some idx =>
      if s.getLast? = some ')' ∧ 0 < idx then
        if trim (s.take idx) ≠ [] then
          match parseArgsGo p (splitArgsGo ((s.dropLast).drop (idx + 1)) 0 []) with
          | .error e => .error e
          | .ok args => .ok (.FunctionCall (String.mk (trim (s.take idx))) args)
        else parseTail3 p s
      else parseTail3 p s
  | none => parseTail3 p s

/-- The body of Expression::parse (src/model/expression.rs lines 61-168) with
the recursive occurrences abstracted: trim, number, conditional, comparison,
sum-level then product-level then power-level binary splits, surrounding
parentheses, function call, unary minus, subscript, variable fallback. -/
def parseBody (p : List Char → Except String Expression) (l : List Char) :
    Except String Expression :=
  let s := trim l
  match parseF64 s with
  | some q => .ok (.Constant q)
  | none =>
    match tryParseConditional p s with
    | some r => r
    | none =>
      match tryParseComparison p s with
      | some e => .ok e
      | none =>
        match tryParseBinary p ['+', '-'] s with
        | some e => .ok e
        | none =>
          match tryParseBinary p ['*', '/'] s with
          | some e => .ok e
          | none =>
            match tryParseBinary p ['^'] s with
            | some e => .ok e
            | none =>
              if s.head? = some '(' ∧ s.getLast? = some ')' then
                p ((s.drop 1).dropLast)
              else parseTail2 p s

/-- Expression::parse with explicit recursion fuel (every recursive call of
the source is on a strictly shorter string, so length + 1 fuel always
suffices, as the totality theorem shows). -/
def parseGo : ℕ → List Char → Except String Expression
  | 0, _ => .error "parse fuel exhausted"
  | fuel + 1, l => parseBody (parseGo fuel) l

/-- Expression::parse over a character list. -/
def parseChars (l : List Char) : Except String Expression := parseGo (l.length + 1) l

/-- Expression::parse. -/
def parseStr (s : String) : Except String Expression := parseChars s.data



/-- Trimming never lengthens a string. -/
theorem trim_length (l : List Char) : (trim l).length ≤ l.length := by
  unfold trim
  rw [List.length_reverse]
  refine le_trans (List.dropWhile_sublist Char.isWhitespace).length_le ?_
  rw [List.length_reverse]
  exact (List.dropWhile_sublist Char.isWhitespace).length_le

/-- A found character index is inside the string. -/
theorem findCharIdx_lt (c : Char) :
    ∀ (l : List Char) (i : ℕ), findCharIdx c l = some i → i < l.length := by
  intro l
  induction l with
  | nil => intro i h; exact Option.noConfusion h
  | cons d rest ih =>
      intro i h
      rw [findCharIdx] at h
      by_cases hd : d = c
      · rw [if_pos hd] at h
        injection h with h2
        rw [← h2]
        simp
      · rw [if_neg hd] at h
        obtain ⟨j, hj, hij⟩ := Option.map_eq_some'.mp h
        rw [← hij, List.length_cons]
        exact Nat.succ_lt_succ (ih j hj)

/-- Every piece the argument splitter yields fits inside the current
accumulator plus the remaining input. -/
theorem splitArgsGo_length :
    ∀ (l : List Char) (depth : ℤ) (cur a : List Char),
      a ∈ splitArgsGo l depth cur → a.length ≤ cur.length + l.length := by
  intro l
  induction l with
  | nil =>
      intro depth cur a ha
      rw [splitArgsGo] at ha
      by_cases hc : trim cur = []
      · rw [if_pos hc] at ha
        exact absurd ha (List.not_mem_nil a)
      · rw [if_neg hc] at ha
        rw [List.mem_singleton.mp ha]
        simpa using trim_length cur
  | cons c rest ih =>
      intro depth cur a ha
      rw [splitArgsGo] at ha
      by_cases h1 : c = '('
      · rw [if_pos h1] at ha
        have := ih (depth + 1) (cur ++ [c]) a ha
        simp only [List.length_append, List.length_singleton, List.length_cons, List.length_nil] at this ⊢
        omega
      · rw [if_neg h1] at ha
        by_cases h2 : c = ')'
        · rw [if_pos h2] at ha
          have := ih (depth - 1) (cur ++ [c]) a ha
          simp only [List.length_append, List.length_singleton, List.length_cons, List.length_nil] at this ⊢
          omega
        · rw [if_neg h2] at ha
          by_cases h3 : c = ',' ∧ depth = 0
          · rw [if_pos h3] at ha
            rcases List.mem_cons.mp ha with rfl | hmem
            · have := trim_length cur
              simp only [List.length_cons]
              omega
            · have := ih 0 [] a hmem
              simp only [List.length_nil, List.length_cons] at this ⊢
              omega
          · rw [if_neg h3] at ha
            have := ih depth (cur ++ [c]) a ha
            simp only [List.length_append, List.length_singleton, List.length_cons, List.length_nil] at this ⊢
            omega

/-- If every split argument parses, the argument loop collects them all. -/
theorem parseArgsGo_ok (p : List Char → Except String Expression) :
    ∀ (args : List (List Char)), (∀ a ∈ args, ∃ e, p (trim a) = .ok e) →
      ∃ es, parseArgsGo p args = .ok es := by
  intro args
  induction args with
  | nil => intro _; exact ⟨[], rfl⟩
  | cons a rest ih =>
      intro hall
      obtain ⟨ea, hea⟩ := hall a (List.mem_cons_self a rest)
      obtain ⟨es, hes⟩ := ih (fun b hb => hall b (List.mem_cons_of_mem a hb))
      rw [parseArgsGo, hea, hes]
      exact ⟨ea :: es, rfl⟩

/-- When the recursive parser succeeds on every strictly shorter string, an
activated conditional branch returns successfully: each of its three slices is
strictly shorter than the input. -/
theorem tryParseConditional_ok (p : List Char → Except String Expression)
    (s : List Char) (r : Except String Expression)
    (hp : ∀ l2 : List Char, l2.length < s.length → ∃ e, p l2 = .ok e)
    (h : tryParseConditional p s = some r) : ∃ e, r = .ok e := by
  unfold tryParseConditional at h
  dsimp only at h
  by_cases hif : (s.map Char.toUpper).take 3 ≠ ['I', 'F', ' ']
  · rw [if_pos hif] at h
    exact Option.noConfusion h
  · rw [if_neg hif] at h
    push_neg at hif
    have hlen3 : 3 ≤ s.length := by
      have := congrArg List.length hif
      simp only [List.length_take, List.length_map, List.length_cons, List.length_nil] at this
      omega
    cases hfind : findITEGo (s.map Char.toUpper) ((s.map Char.toUpper).length + 1) 0 0 none with
    | none => rw [hfind] at h; exact Option.noConfusion h
    | some pr =>
        obtain ⟨tp, ep⟩ := pr
        rw [hfind] at h
        injection h with h2
        obtain ⟨ec, hec⟩ := hp (trim ((s.take tp).drop 3)) (by
          have := trim_length ((s.take tp).drop 3)
          simp only [List.length_drop, List.length_take] at this
          omega)
        obtain ⟨et, het⟩ := hp (trim ((s.take ep).drop (tp + 4))) (by
          have := trim_length ((s.take ep).drop (tp + 4))
          simp only [List.length_drop, List.length_take] at this
          omega)
        obtain ⟨ef, hef⟩ := hp (trim (s.drop (ep + 4))) (by
          have := trim_length (s.drop (ep + 4))
          simp only [List.length_drop] at this
          omega)
        rw [hec, het, hef] at h2
        dsimp only at h2
        exact ⟨_, h2.symm⟩

/-- When the recursive parser succeeds on every strictly shorter string, the
unary/subscript/fallback tail succeeds. -/
theorem parseTail3_ok (p : List Char → Except String Expression) (s : List Char)
    (hp : ∀ l2 : List Char, l2.length < s.length → ∃ e, p l2 = .ok e) :
    ∃ e, parseTail3 p s = .ok e := by
  unfold parseTail3
  by_cases hm : s.head? = some '-'
  · rw [if_pos hm]
    have hne : s ≠ [] := by
      intro h0
      rw [h0] at hm
      exact Option.noConfusion hm
    obtain ⟨ei, hei⟩ := hp (s.drop 1) (by
      have := List.length_pos.mpr hne
      simp only [List.length_drop]
      omega)
    rw [hei]
    exact ⟨_, rfl⟩
  · rw [if_neg hm]
    cases hb : findCharIdx '[' s with
    | none => exact ⟨_, rfl⟩
    | some bidx =>
        dsimp only
        by_cases hend : s.getLast? = some ']'
        · rw [if_pos hend]
          exact ⟨_, rfl⟩
        · rw [if_neg hend]
          exact ⟨_, rfl⟩

/-- When the recursive parser succeeds on every strictly shorter string, the
function-call branch and everything after it succeed: every split argument is
strictly shorter than the input. -/
theorem parseTail2_ok (p : List Char → Except String Expression) (s : List Char)
    (hp : ∀ l2 : List Char, l2.length < s.length → ∃ e, p l2 = .ok e) :
    ∃ e, parseTail2 p s = .ok e := by
  unfold parseTail2
  cases hf : findCharIdx '(' s with
  | none => exact parseTail3_ok p s hp
  | some idx =>
      dsimp only
      by_cases hc : s.getLast? = some ')' ∧ 0 < idx
      · rw [if_pos hc]
        by_cases hn : trim (s.take idx) ≠ []
        · rw [if_pos hn]
          have hne : s ≠ [] := by
            intro h0
            rw [h0] at hc
            exact Option.noConfusion hc.1
          have hpos := List.length_pos.mpr hne
          obtain ⟨es, hes⟩ := parseArgsGo_ok p
            (splitArgsGo ((s.dropLast).drop (idx + 1)) 0 []) (by
              intro a ha
              refine hp (trim a) ?_
              have h1 := splitArgsGo_length ((s.dropLast).drop (idx + 1)) 0 [] a ha
              have h2 := trim_length a
              simp only [List.length_nil, List.length_drop, List.length_dropLast] at h1
              omega)
          rw [hes]
          exact ⟨_, rfl⟩
        · rw [if_neg hn]
          exact parseTail3_ok p s hp
      · rw [if_neg hc]
        exact parseTail3_ok p s hp

/-- When the recursive parser succeeds on every string strictly shorter than
the trimmed input, one unfolding of the parse body succeeds: no branch of
Expression::parse produces an error of its own. -/
theorem parseBody_ok (p : List Char → Except String Expression) (l : List Char)
    (hp : ∀ l2 : List Char, l2.length < (trim l).length → ∃ e, p l2 = .ok e) :
    ∃ e, parseBody p l = .ok e := by
  unfold parseBody
  dsimp only
  cases hnum : parseF64 (trim l) with
  | some q => exact ⟨_, rfl⟩
  | none =>
      dsimp only
      cases hcond : tryParseConditional p (trim l) with
      | some r =>
          exact tryParseConditional_ok p (trim l) r hp hcond
      | none =>
          dsimp only
          cases hcmp : tryParseComparison p (trim l) with
          | some e => exact ⟨_, rfl⟩
          | none =>
              dsimp only
              cases hb1 : tryParseBinary p ['+', '-'] (trim l) with
              | some e => exact ⟨_, rfl⟩
              | none =>
                  dsimp only
                  cases hb2 : tryParseBinary p ['*', '/'] (trim l) with
                  | some e => exact ⟨_, rfl⟩
                  | none =>
                      dsimp only
                      cases hb3 : tryParseBinary p ['^'] (trim l) with
                      | some e => exact ⟨_, rfl⟩
                      | none =>
                          dsimp only
                          by_cases hpar : (trim l).head? = some '(' ∧
                              (trim l).getLast? = some ')'
                          · rw [if_pos hpar]
                            have hne : trim l ≠ [] := by
                              intro h0
                              rw [h0] at hpar
                              exact Option.noConfusion hpar.1
                            exact hp (((trim l).drop 1).dropLast) (by
                              have := List.length_pos.mpr hne
                              simp only [List.length_dropLast, List.length_drop]
                              omega)
                          · rw [if_neg hpar]
                            exact parseTail2_ok p (trim l) hp

/-- With fuel above the input length, the parser always succeeds. -/
theorem parse_total : ∀ (fuel : ℕ) (l : List Char), l.length < fuel →
    ∃ e, parseGo fuel l = .ok e := by
  intro fuel
  induction fuel with
  | zero => intro l hl; exact absurd hl (Nat.not_lt_zero _)
  | succ fuel ih =>
      intro l hl
      rw [parseGo]
      exact parseBody_ok (parseGo fuel) l (fun l2 hl2 => ih l2 (by
        have := trim_length l
        omega))

/-- C7 (amended): Expression::parse never returns an error on any input — the
final branch turns every otherwise-unrecognized construct, including those
with empty operands, unmatched parentheses or an IF without its THEN or ELSE,
into Ok(Variable(input)); an Err can only echo a sub-parse, and by induction
on the (strictly shrinking) sub-parses none is ever produced. -/
theorem parse_never_errs : ∀ l : List Char, ∃ e, parseChars l = .ok e := fun l =>
  parse_total (l.length + 1) l (Nat.lt_succ_self _)

/-- C7 counterexample: the three malformed families the claim says must fail —
an unmatched parenthesis, an empty operand beside a binary operator, and an IF
without ELSE — all parse Ok as Variable atoms. -/
theorem parse_malformed_ok_counterexample :
    parseStr "(1" = .ok (.Variable "(1")
  ∧ parseStr "1 +" = .ok (.Variable "1 +")
  ∧ parseStr "IF 1 THEN 2" = .ok (.Variable "IF 1 THEN 2") := by
  refine ⟨?_, ?_, ?_⟩ <;> with_unfolding_all rfl

end Rssdsim
